import Mathlib

/-!
# Verification of the mbuckets hierarchical-bucket layer

This development embeds the mbuckets package (a thin wrapper over the Bolt
transactional key-value engine) in Lean.  Byte slices are modelled as
`List Nat` values; the Bolt engine state is a finite tree of containers,
each container an ordered association list from keys to entries, where an
entry is either a plain value or a nested container.  The engine operations
(`Bucket.Bucket`, `CreateBucketIfNotExists`, `Put`, `Get`, `DeleteBucket`,
cursor `Seek`/`Next`) are modelled from the collaborator contract in the
specification together with Bolt's documented behaviour; the mbuckets
functions (`Update`, `View`, `Insert`, `InsertAll`, `Get`, `GetAll`,
`GetPrefix`, `GetRange`, `DeleteBucket`, `GetRootBucketNames`,
`GetAllBucketNames`) are translated from `mbuckets.go`.  Transactions are
value-passing: a write operation returns the committed store on success and
an error (leaving the caller's store untouched) on failure, which models
Bolt's commit-or-rollback guarantee.  Unbounded cursor/work-queue loops are
translated with an explicit fuel parameter; a `noFuel` result marks a loop
that did not exit within the given bound.
-/

namespace MBuckets

/-- A byte slice, modelled as a list of byte values. -/
abbrev Bytes := List Nat

/-- Lexicographic byte comparison, as Go's `bytes.Compare`: a strict prefix
compares less than its extensions. -/
def bytesCompare : Bytes → Bytes → Ordering
  | [], [] => .eq
  | [], _ :: _ => .lt
  | _ :: _, [] => .gt
  | a :: as, b :: bs =>
    if a < b then .lt else if b < a then .gt else bytesCompare as bs

/-- `a` is strictly below `b` in lexicographic byte order. -/
def bytesLt (a b : Bytes) : Bool := decide (bytesCompare a b = .lt)

/-- `a ≤ b` in lexicographic byte order (Go `bytes.Compare(a, b) <= 0`). -/
def bytesLe (a b : Bytes) : Bool := !decide (bytesCompare a b = .gt)

/-- Go `bytes.HasPrefix s pre`: `s` begins with the byte sequence `pre`.
A nil slice behaves as the empty slice, as in Go. -/
def bytesHasPrefix : Bytes → Bytes → Bool
  | _, [] => true
  | [], _ :: _ => false
  | a :: s, b :: p => a == b && bytesHasPrefix s p

/-- Index of the first occurrence of `pat` in `s` (Go `bytes.Index`). -/
def findSub : Bytes → Bytes → Option Nat
  | s, pat =>
    if bytesHasPrefix s pat then some 0
    else
      match s with
      | [] => none
      | _ :: rest => (findSub rest pat).map (· + 1)

theorem length_le_of_hasPrefix : ∀ {s p : Bytes}, bytesHasPrefix s p = true →
    p.length ≤ s.length
  | _, [], _ => Nat.zero_le _
  | [], _ :: _, h => by simp [bytesHasPrefix] at h
  | _ :: s, _ :: p, h => by
    simp only [bytesHasPrefix, Bool.and_eq_true] at h
    simpa using Nat.succ_le_succ (length_le_of_hasPrefix h.2)

theorem findSub_le_length {s pat : Bytes} {i : Nat} (h : findSub s pat = some i) :
    i + pat.length ≤ s.length := by
  induction s generalizing i with
  | nil =>
    rw [findSub] at h
    by_cases hp : bytesHasPrefix [] pat = true
    · simp only [hp, if_pos] at h
      have := length_le_of_hasPrefix hp
      simp only [List.length_nil, Nat.le_zero] at this
      simp only [Option.some.injEq] at h
      simp [← h, this]
    · simp [hp] at h
  | cons a rest ih =>
    rw [findSub] at h
    by_cases hp : bytesHasPrefix (a :: rest) pat = true
    · simp only [hp, if_pos, Option.some.injEq] at h
      have := length_le_of_hasPrefix hp
      omega
    · simp only [hp, if_neg, Bool.false_eq_true, not_false_eq_true, Option.map_eq_some'] at h
      obtain ⟨j, hj, rfl⟩ := h
      have := ih hj
      simp only [List.length_cons]
      omega

/-- Go `bytes.Split s sep` for a non-empty separator: cut `s` at every
occurrence of `sep`.  (Go special-cases an empty separator as a UTF-8 rune
split; this development never splits on an empty separator, and models that
case as the whole slice.)  The result always has at least one fragment. -/
def bytesSplit (s sep : Bytes) : List Bytes :=
  if hsep : sep = [] then [s]
  else
    match hf : findSub s sep with
    | none => [s]
    | some i => s.take i :: bytesSplit (s.drop (i + sep.length)) sep
termination_by s.length
decreasing_by
  have hle := findSub_le_length hf
  have hpos : 0 < sep.length := List.length_pos.mpr hsep
  have : 0 < s.length := by omega
  simp [List.length_drop]
  omega

theorem bytesSplit_ne_nil (s sep : Bytes) : bytesSplit s sep ≠ [] := by
  rw [bytesSplit]
  by_cases hsep : sep = []
  · simp [hsep]
  · simp only [hsep, dif_neg]
    rcases hf : findSub s sep with _ | i <;> simp

/-- Join path segments with a separator (the full hierarchical name of the
container reached through those segments). -/
def joinName (sep : Bytes) : List Bytes → Bytes
  | [] => []
  | [x] => x
  | x :: y :: rest => x ++ sep ++ joinName sep (y :: rest)

/-!
## The engine store model

A container (Bolt bucket) maps keys to entries; an entry is either a plain
value or a nested container.  Containers keep their entries in ascending
key order, as the engine's B+tree does.  The store itself maps top-level
container names to containers.
-/

/-- An entry of a container: a plain value, or a nested container given by
its own entry list. -/
inductive Entry where
  | val (v : Bytes)
  | sub (entries : List (Bytes × Entry))

/-- A container's contents: an association list from keys to entries, kept
in ascending key order by the engine. -/
abbrev Bkt := List (Bytes × Entry)

/-- The whole store: the top-level containers by name. -/
abbrev DBS := List (Bytes × Bkt)

/-- Errors surfaced by the layer: the two `fmt.Errorf` messages built by
mbuckets (each carrying the byte string it interpolates), the Bolt engine
errors that the wrapper passes through, and the fuel marker for a loop that
did not exit within its bound. -/
inductive Err where
  | bucketNotFound (name : Bytes)
  | keyNotFound (key : Bytes)
  | engineBucketNotFound
  | incompatibleValue
  | bucketNameRequired
  | keyRequired
  | noFuel
  deriving DecidableEq, Repr

/-- Look a key up in a container (first entry with that key, as the engine's
unique-key tree). -/
def lookupEntry (es : Bkt) (k : Bytes) : Option Entry :=
  (es.find? (fun e => e.1 == k)).map (·.2)

/-- Look a top-level container up by name (`tx.Bucket`). -/
def dbLookup (db : DBS) (s : Bytes) : Option Bkt :=
  (db.find? (fun e => e.1 == s)).map (·.2)

/-- The local names of the direct sub-containers of a container, in entry
order.  These are exactly the keys for which the engine's iteration reports
a nil value. -/
def subNamesOf (es : Bkt) : List Bytes :=
  es.filterMap (fun e => match e.2 with | .sub _ => some e.1 | .val _ => none)

/-- Walk the remaining path segments down from a container, as the segment
loop of `Bucket.View` does: each segment must name a direct sub-container
of the current one. -/
def resolveGo (es : Bkt) : List Bytes → Option Bkt
  | [] => some es
  | s :: rest =>
    match lookupEntry es s with
    | some (.sub es') => resolveGo es' rest
    | _ => none

/-- Resolve a full segment path from the store root (first segment as a
top-level container, the rest as nested sub-containers). -/
def resolvePath (db : DBS) : List Bytes → Option Bkt
  | [] => none
  | s :: rest => (dbLookup db s).bind (fun es => resolveGo es rest)

mutual

/-- The relative paths of the containers nested anywhere below an entry:
`none` for a plain value, the paths below the nested container otherwise. -/
def entryPaths : Entry → Option (List (List Bytes))
  | .val _ => none
  | .sub es => some (bktPaths es)

/-- The relative paths of all containers nested anywhere below an entry
list, each path the list of local names from that entry list down. -/
def bktPaths : Bkt → List (List Bytes)
  | [] => []
  | e :: rest =>
    (match entryPaths e.2 with
     | none => []
     | some ps => [e.1] :: ps.map (e.1 :: ·)) ++ bktPaths rest

end

/-- The segment paths of every container in the store, root containers
included. -/
def DBS.allPaths (db : DBS) : List (List Bytes) :=
  db.flatMap (fun e => [e.1] :: (bktPaths e.2).map (e.1 :: ·))

mutual

/-- The number of containers nested anywhere inside an entry (the
container itself included when the entry is one). -/
def entryCount : Entry → Nat
  | .val _ => 0
  | .sub es => 1 + bktCount es

/-- The number of containers nested anywhere below an entry list. -/
def bktCount : Bkt → Nat
  | [] => 0
  | e :: rest => entryCount e.2 + bktCount rest

end

/-- The total number of containers in the store. -/
def DBS.bktTotal (db : DBS) : Nat :=
  db.foldr (fun e acc => 1 + bktCount e.2 + acc) 0

/-- Does the entry list already use this key? -/
def hasKey (es : Bkt) (k : Bytes) : Bool :=
  es.any (fun e => e.1 == k)

mutual

/-- Whether an entry's nested container (if any) is well-formed, see
`goodBkt`. -/
def entryGood (c : Nat) : Entry → Bool
  | .val _ => true
  | .sub es => goodBkt c es

/-- Well-formedness of a container as the engine maintains it for
hierarchies created through write-mode resolution with a one-byte
separator `c`: keys are unique within each container, and each nested
container's local name is non-empty and free of the separator byte
(segments produced by splitting on the separator never contain it, and
the engine refuses empty container names). -/
def goodBkt (c : Nat) : Bkt → Bool
  | [] => true
  | e :: rest =>
    !hasKey rest e.1 &&
    (match e.2 with
     | .val _ => true
     | .sub _ => !e.1.isEmpty && !e.1.contains c) &&
    entryGood c e.2 && goodBkt c rest

end

/-- Well-formedness of the whole store, see `goodBkt`: additionally the
top-level container names are unique, non-empty and separator-free. -/
def goodDB (c : Nat) : DBS → Bool
  | [] => true
  | e :: rest =>
    !rest.any (fun e' => e'.1 == e.1) &&
    !e.1.isEmpty && !e.1.contains c &&
    goodBkt c e.2 && goodDB c rest

/-!
## The mbuckets layer

`Bucket` is the caller-facing handle: a store reference, the full
hierarchical name, and the separator.  Write operations return the
committed store on success; on error the caller's store is unchanged
(`commit`), which models the engine's transaction rollback.
-/

/-- An mbuckets bucket handle (store reference, full hierarchical name,
separator). -/
structure Bucket where
  db : DBS
  name : Bytes
  separator : Bytes

/-- `DB.Bucket`: a handle with the default `/` separator (byte 47). -/
def DBS.Bucket (db : DBS) (name : Bytes) : Bucket :=
  ⟨db, name, [47]⟩

/-- `Bucket.WithSeparator`: override the separator. -/
def Bucket.WithSeparator (b : Bucket) (sep : Bytes) : Bucket :=
  { b with separator := sep }

/-- Insert an entry in front of the first strictly greater key (the
engine's sorted-tree insertion; used only when the key is absent). -/
def insertSorted (k : Bytes) (e : Entry) : Bkt → Bkt
  | [] => [(k, e)]
  | e' :: rest =>
    if bytesLt k e'.1 then (k, e) :: e' :: rest else e' :: insertSorted k e rest

/-- Replace the entry stored under an existing key. -/
def replaceEntry (k : Bytes) (e : Entry) : Bkt → Bkt
  | [] => []
  | e' :: rest => if e'.1 == k then (k, e) :: rest else e' :: replaceEntry k e rest

/-- Remove the entry stored under a key. -/
def removeEntry (k : Bytes) : Bkt → Bkt
  | [] => []
  | e' :: rest => if e'.1 == k then rest else e' :: removeEntry k rest

/-- Engine `Bucket.Put`: refuses an empty key and a key already naming a
nested container; otherwise stores the value under the key (overwriting a
previous value silently). -/
def putVal (es : Bkt) (k v : Bytes) : Except Err Bkt :=
  if k = [] then .error .keyRequired
  else
    match lookupEntry es k with
    | some (.sub _) => .error .incompatibleValue
    | some (.val _) => .ok (replaceEntry k (.val v) es)
    | none => .ok (insertSorted k (.val v) es)

/-- Engine `Bucket.Get`: the value stored under the key, or `none` when
the key is absent or names a nested container. -/
def bktGet (es : Bkt) (k : Bytes) : Option Bytes :=
  match lookupEntry es k with
  | some (.val v) => some v
  | _ => none

/-- The segment loop of `Bucket.Update`: resolve/create each remaining
segment as a nested container (`CreateBucketIfNotExists`), then run the
operation body on the terminal container, rebuilding the spine.  Any
failure aborts with no new state. -/
def updateGo (fn : Bkt → Except Err Bkt) : List Bytes → Bkt → Except Err Bkt
  | [], es => fn es
  | s :: rest, es =>
    if s = [] then .error .bucketNameRequired
    else
      match lookupEntry es s with
      | some (.val _) => .error .incompatibleValue
      | some (.sub es') =>
        (updateGo fn rest es').map (fun es'' => replaceEntry s (.sub es'') es)
      | none =>
        (updateGo fn rest []).map (fun es'' => insertSorted s (.sub es'') es)

/-- Replace the contents of an existing top-level container. -/
def dbReplace (s : Bytes) (b : Bkt) : DBS → DBS
  | [] => []
  | e :: rest => if e.1 == s then (s, b) :: rest else e :: dbReplace s b rest

/-- Add a new top-level container in key order. -/
def dbInsertSorted (s : Bytes) (b : Bkt) : DBS → DBS
  | [] => [(s, b)]
  | e :: rest =>
    if bytesLt s e.1 then (s, b) :: e :: rest else e :: dbInsertSorted s b rest

/-- `Bucket.Update`: split the name on the separator, resolve/create the
chain of containers inside one write transaction
(`tx.CreateBucketIfNotExists` for the first segment,
`CreateBucketIfNotExists` for each later one), and run `fn` on the
terminal container.  On any error nothing is committed. -/
def Bucket.Update (b : Bucket) (fn : Bkt → Except Err Bkt) : Except Err DBS :=
  match bytesSplit b.name b.separator with
  | [] => .error .bucketNameRequired
  | s :: rest =>
    if s = [] then .error .bucketNameRequired
    else
      match dbLookup b.db s with
      | some es => (updateGo fn rest es).map (fun es' => dbReplace s es' b.db)
      | none => (updateGo fn rest []).map (fun es' => dbInsertSorted s es' b.db)

/-- `Bucket.View`: split the name on the separator and resolve the chain
of containers inside one read transaction; every missing step fails with
the same `Bucket not found:` error carrying the full requested name, as
each step of the source loop does.  The resolved terminal container is
handed to the operation body. -/
def Bucket.View (b : Bucket) : Except Err Bkt :=
  match resolvePath b.db (bytesSplit b.name b.separator) with
  | some es => .ok es
  | none => .error (.bucketNotFound b.name)

/-- Commit semantics of a write transaction: the new store on success, the
unchanged store on error (the engine rolls the transaction back). -/
def commit (db : DBS) (r : Except Err DBS) : DBS :=
  match r with
  | .ok db' => db'
  | .error _ => db

/-- A key/value pair handed to or returned by the layer. -/
structure Item where
  Key : Bytes
  Value : Bytes
  deriving DecidableEq, Repr

/-- `Bucket.CreateBucket`: an update with an empty body, forcing creation
of the container chain. -/
def Bucket.CreateBucket (b : Bucket) : Except Err DBS :=
  b.Update (fun es => .ok es)

/-- `Bucket.Insert`: put one key/value pair into the terminal container. -/
def Bucket.Insert (b : Bucket) (key value : Bytes) : Except Err DBS :=
  b.Update (fun es => putVal es key value)

/-- The body of `Bucket.InsertAll`: put each item in order, stopping at
the first failure. -/
def putAll : List Item → Bkt → Except Err Bkt
  | [], es => .ok es
  | item :: rest, es =>
    match putVal es item.Key item.Value with
    | .error e => .error e
    | .ok es' => putAll rest es'

/-- `Bucket.InsertAll`: put all the items inside one write transaction. -/
def Bucket.InsertAll (b : Bucket) (items : List Item) : Except Err DBS :=
  b.Update (putAll items)

/-- The value of the last item in the list carrying a given key, if any
(later puts overwrite earlier ones). -/
def lastValue : List Item → Bytes → Option Bytes
  | [], _ => none
  | it :: rest, k =>
    match lastValue rest k with
    | some v => some v
    | none => if it.Key == k then some it.Value else none

/-- `Bucket.Get`: the engine value for the key, copied out, or a
`Key not found:` error carrying the key when the engine reports nil. -/
def Bucket.Get (b : Bucket) (key : Bytes) : Except Err Bytes :=
  (b.View).bind (fun es =>
    match bktGet es key with
    | some v => .ok v
    | none => .error (.keyNotFound key))

/-- The collecting body shared by `Bucket.GetAll`'s iteration: keep the
pairs the engine reports with a non-nil value (plain values), skipping
nested-container entries, and copy them out. -/
def valueItems (es : Bkt) : List Item :=
  es.filterMap (fun e =>
    match e.2 with
    | .val v => some ⟨e.1, v⟩
    | .sub _ => none)

/-- `Bucket.GetAll`: iterate every entry of the terminal container
(`Bucket.Map` / engine `ForEach`, which reports a nil value for nested
containers) and copy out the pairs whose value is non-nil. -/
def Bucket.GetAll (b : Bucket) : Except Err (List Item) :=
  (b.View).map valueItems

/-- Engine `Cursor.Seek`: position the cursor at the first key `≥ target`
(the remaining entries, in order). -/
def seekCursor (es : Bkt) (target : Bytes) : Bkt :=
  es.dropWhile (fun e => bytesLt e.1 target)

/-- The cursor loop of `Bucket.MapRange` with the collecting body of
`Bucket.GetRange`: yield entries while the key is non-nil (cursor not
exhausted) and `≤ max`, copying out pairs with a non-nil value. -/
def rangeLoop (maxKey : Bytes) : Bkt → List Item
  | [] => []
  | e :: rest =>
    if bytesLe e.1 maxKey then
      match e.2 with
      | .val v => ⟨e.1, v⟩ :: rangeLoop maxKey rest
      | .sub _ => rangeLoop maxKey rest
    else []

/-- `Bucket.GetRange`: seek to the first key `≥ min`, then yield while the
key is `≤ max`; both bounds inclusive. -/
def Bucket.GetRange (b : Bucket) (minKey maxKey : Bytes) : Except Err (List Item) :=
  (b.View).map (fun es => rangeLoop maxKey (seekCursor es minKey))

/-- The cursor loop of `Bucket.MapPrefix` with the collecting body of
`Bucket.GetPrefix`: yield entries while `bytes.HasPrefix key pfx` holds,
copying out pairs with a non-nil value.  An exhausted cursor yields a nil
key (modelled as the empty slice, which Go's `HasPrefix` treats
identically), so with an empty `pfx` the loop condition stays true at the
end of the bucket and the loop never exits; the fuel parameter makes that
observable as a `noFuel` result. -/
def prefixLoop (pfx : Bytes) : Nat → Bkt → Except Err (List Item)
  | 0, _ => .error .noFuel
  | fuel + 1, [] =>
    if bytesHasPrefix [] pfx then prefixLoop pfx fuel [] else .ok []
  | fuel + 1, e :: rest =>
    if bytesHasPrefix e.1 pfx then
      (prefixLoop pfx fuel rest).map (fun items =>
        match e.2 with
        | .val v => ⟨e.1, v⟩ :: items
        | .sub _ => items)
    else .ok []

/-- `Bucket.GetPrefix`: seek to the first key `≥ pfx`, then yield while
the key still starts with `pfx`.  The fuel bound `length + 1` is enough
for every non-empty `pfx` (`prefixLoop_ok`); an empty `pfx` exhausts any
fuel. -/
def Bucket.GetPrefix (b : Bucket) (pfx : Bytes) : Except Err (List Item) :=
  (b.View).bind (fun es => prefixLoop pfx (es.length + 1) (seekCursor es pfx))

/-- Remove a top-level container by name. -/
def dbRemove (s : Bytes) : DBS → DBS
  | [] => []
  | e :: rest => if e.1 == s then rest else e :: dbRemove s rest

/-- Engine `tx.DeleteBucket`: remove a top-level container, failing when
it does not exist. -/
def dbDeleteBucket (db : DBS) (s : Bytes) : Except Err DBS :=
  match dbLookup db s with
  | some _ => .ok (dbRemove s db)
  | none => .error .engineBucketNotFound

/-- Engine `Bucket.DeleteBucket`: remove the child container with the
given name, failing when the key is absent (`ErrBucketNotFound`) or holds
a plain value (`ErrIncompatibleValue`).  The subtree below the removed
entry is discarded with it. -/
def bktDeleteChild (es : Bkt) (k : Bytes) : Except Err Bkt :=
  match lookupEntry es k with
  | some (.sub _) => .ok (removeEntry k es)
  | some (.val _) => .error .incompatibleValue
  | none => .error .engineBucketNotFound

/-- The segment loop of `Bucket.DeleteBucket` over `buckets[1:]`: on every
index but the last, resolve the segment (failing with the full name);
on the last index, call the engine's `DeleteBucket` on the current
container — with `buckets[0]`, the first path segment, exactly as the
source does (`bucket.DeleteBucket(buckets[0])`). -/
def deleteWalk (name first : Bytes) : Bkt → List Bytes → Except Err Bkt
  | es, [] => .ok es
  | es, [_] => bktDeleteChild es first
  | es, s :: rest =>
    match lookupEntry es s with
    | some (.sub es') =>
      (deleteWalk name first es' rest).map (fun es'' => replaceEntry s (.sub es'') es)
    | _ => .error (.bucketNotFound name)

/-- `Bucket.DeleteBucket`: delete a top-level container directly when the
path has one segment; otherwise resolve the chain and run `deleteWalk`. -/
def Bucket.DeleteBucket (b : Bucket) : Except Err DBS :=
  match bytesSplit b.name b.separator with
  | [] => .error .bucketNameRequired
  | [s] => dbDeleteBucket b.db s
  | s :: rest =>
    match dbLookup b.db s with
    | none => .error (.bucketNotFound b.name)
    | some es =>
      (deleteWalk b.name s es rest).map (fun es' => dbReplace s es' b.db)

/-- `Bucket.GetRootBucketNames`: the names of the direct sub-containers of
the terminal container (the entries the engine reports with a nil value),
each prefixed with the bucket's full name and the separator. -/
def Bucket.GetRootBucketNames (b : Bucket) : Except Err (List Bytes) :=
  (b.View).map (fun es => (subNamesOf es).map (fun l => b.name ++ b.separator ++ l))

/-- The work-queue loop of `Bucket.GetAllBucketNames`: pop a full name,
record it, list its direct children through a fresh read resolution of
that name from the store root, and push them; on an error return what has
been accumulated together with the error.  The source loop counts pending
names in `numBucketsToProcess`, which always equals the queue length, so
the loop runs while the queue is non-empty; the fuel makes the unbounded
loop a total function and `bfsFuel` is always sufficient
(`bfsLoop_spec`). -/
def bfsLoop (db : DBS) (sep : Bytes) : Nat → List Bytes → List Bytes → List Bytes × Option Err
  | 0, acc, _ => (acc, some .noFuel)
  | _ + 1, acc, [] => (acc, none)
  | fuel + 1, acc, n :: queue =>
    match Bucket.GetRootBucketNames ⟨db, n, sep⟩ with
    | .error e => (acc ++ [n], some e)
    | .ok subs => bfsLoop db sep fuel (acc ++ [n]) (queue ++ subs)

/-- Fuel that always suffices for the discovery walk: one more than the
number of containers in the store. -/
def bfsFuel (db : DBS) : Nat :=
  DBS.bktTotal db + 1

/-- `Bucket.GetAllBucketNames`: breadth-first discovery of every container
name below this bucket. -/
def Bucket.GetAllBucketNames (b : Bucket) : List Bytes × Option Err :=
  match b.GetRootBucketNames with
  | .error e => ([], some e)
  | .ok queue => bfsLoop b.db b.separator (bfsFuel b.db) [] queue

/-- `DB.GetRootBucketNames`: the top-level container names, in iteration
order (a read of the root transaction cannot fail, so the source's error
result is always nil). -/
def DBS.GetRootBucketNames (db : DBS) : List Bytes :=
  db.map (·.1)

/-- The root loop of `DB.GetAllBucketNames`: every top-level name followed
by the discovery of its subtree; on a subtree error the source returns the
names accumulated so far (without that root's descendants) and the
error. -/
def dbAllGo (db : DBS) : List Bytes → List Bytes × Option Err
  | [] => ([], none)
  | r :: rest =>
    match Bucket.GetAllBucketNames (DBS.Bucket db r) with
    | (_, some e) => ([r], some e)
    | (subs, none) =>
      match dbAllGo db rest with
      | (more, e) => (r :: subs ++ more, e)

/-- `DB.GetAllBucketNames`: recursively find every container name in the
store, using the default `/` separator. -/
def DBS.GetAllBucketNames (db : DBS) : List Bytes × Option Err :=
  dbAllGo db (DBS.GetRootBucketNames db)

/-- The engine's cursor-order invariant: a container's entries are in
strictly ascending key order (Bolt iterates its B+tree in key order). -/
abbrev KeysSorted (es : Bkt) : Prop :=
  List.Pairwise (fun a b => bytesLt a.1 b.1 = true) es

/-- The direct sub-containers of a container with their local names, in
entry order. -/
def subEntries (es : Bkt) : List (Bytes × Bkt) :=
  es.filterMap (fun e => match e.2 with | .sub es' => some (e.1, es') | .val _ => none)

/-- A discovery-relevant path in a store addressed with the default
separator: non-empty, resolving to a container, with separator-free
segments. -/
def GoodPath (db : DBS) (p : List Bytes) : Prop :=
  p ≠ [] ∧ (resolvePath db p).isSome ∧ ∀ x ∈ p, (47 : Nat) ∉ x

/-- The work a queued path name still causes the discovery walk: itself
plus every container below it. -/
def pathWeight (db : DBS) (p : List Bytes) : Nat :=
  match resolvePath db p with
  | some es => 1 + (bktPaths es).length
  | none => 1

/-- Total remaining work of a discovery queue. -/
def queueWeight (db : DBS) (P : List (List Bytes)) : Nat :=
  (P.map (pathWeight db)).sum

/-- The paths the walk emits for one queued path: the path itself and
every container path below it. -/
def underPaths (db : DBS) (p : List Bytes) : List (List Bytes) :=
  match resolvePath db p with
  | some es => p :: (bktPaths es).map (p ++ ·)
  | none => [p]

/-!
## Concrete stores used to instantiate the theorems

Container names are single bytes (`65 = A`, …); `47` is `/`.
-/

/-- A store with the chain `A` ⊃ `B` ⊃ `C` and nothing else, as the
repository's `TestDeleteNestedBucket` builds with `Bucket1/Bucket2/Bucket3`. -/
def demoChain : DBS :=
  [([65], [([66], .sub [([67], .sub [])])])]

/-- The discovery scenario `{X, X/Y, X/Y/Z, W}` (bytes `88 89 90 87`). -/
def demoDisc : DBS :=
  [([87], []), ([88], [([89], .sub [([90], .sub [])])])]

/-- A flat bucket `B` holding keys `10,20,30,40,50` with values `1..5`. -/
def demoKV : DBS :=
  [([66], [([10], .val [1]), ([20], .val [2]), ([30], .val [3]),
           ([40], .val [4]), ([50], .val [5])])]

/-- A flat bucket `B` holding keys `80·1`, `80·2` (sharing the prefix `80`)
and `90`, plus a nested container named `85`. -/
def demoPfx : DBS :=
  [([66], [([80, 1], .val [1]), ([80, 2], .val [2]), ([85], .sub []),
           ([90], .val [3])])]

/-!
## Lexicographic order facts
-/

theorem bytesCompare_refl (a : Bytes) : bytesCompare a a = .eq := by
  induction a with
  | nil => rfl
  | cons x xs ih => simp [bytesCompare, ih]

theorem bytesCompare_eq_iff : ∀ {a b : Bytes}, bytesCompare a b = .eq ↔ a = b
  | [], [] => by simp [bytesCompare]
  | [], _ :: _ => by simp [bytesCompare]
  | _ :: _, [] => by simp [bytesCompare]
  | x :: xs, y :: ys => by
    rw [bytesCompare]
    split_ifs with h1 h2
    · simp; omega
    · simp; omega
    · have hxy : x = y := by omega
      subst hxy
      simp [bytesCompare_eq_iff]

theorem bytesCompare_swap : ∀ (a b : Bytes), bytesCompare b a = (bytesCompare a b).swap
  | [], [] => rfl
  | [], _ :: _ => rfl
  | _ :: _, [] => rfl
  | x :: xs, y :: ys => by
    rw [bytesCompare, bytesCompare]
    split_ifs with h1 h2 h3 h4 h5 h6 <;> try omega
    all_goals simp [Ordering.swap, bytesCompare_swap xs ys]

theorem bytesCompare_lt_trans : ∀ {a b c : Bytes},
    bytesCompare a b = .lt → bytesCompare b c = .lt → bytesCompare a c = .lt
  | [], b, c, _, h2 => by
    cases c with
    | nil => cases b <;> simp [bytesCompare] at h2
    | cons z zs => simp [bytesCompare]
  | _ :: _, [], _, h1, _ => by simp [bytesCompare] at h1
  | _ :: _, _ :: _, [], _, h2 => by simp [bytesCompare] at h2
  | x :: xs, y :: ys, z :: zs, h1, h2 => by
    rw [bytesCompare] at h1 h2 ⊢
    by_cases hxy : x < y
    · by_cases hyz : y < z
      · simp [show x < z by omega]
      · by_cases hzy : z < y
        · rw [if_neg hyz, if_pos hzy] at h2
          exact absurd h2 (by decide)
        · simp [show x < z by omega]
    · by_cases hyx : y < x
      · rw [if_neg hxy, if_pos hyx] at h1
        exact absurd h1 (by decide)
      · rw [if_neg hxy, if_neg hyx] at h1
        by_cases hyz : y < z
        · simp [show x < z by omega]
        · by_cases hzy : z < y
          · rw [if_neg hyz, if_pos hzy] at h2
            exact absurd h2 (by decide)
          · rw [if_neg hyz, if_neg hzy] at h2
            rw [if_neg (show ¬ x < z by omega), if_neg (show ¬ z < x by omega)]
            exact bytesCompare_lt_trans h1 h2

theorem bytesLt_trans {a b c : Bytes} (h1 : bytesLt a b = true) (h2 : bytesLt b c = true) :
    bytesLt a c = true := by
  simp only [bytesLt, decide_eq_true_eq] at *
  exact bytesCompare_lt_trans h1 h2

theorem bytesLt_false_iff {a b : Bytes} : bytesLt a b = false ↔ bytesLe b a = true := by
  simp only [bytesLt, bytesLe, decide_eq_false_iff_not, Bool.not_eq_true',
    decide_eq_true_eq, Bool.not_eq_false']
  rw [bytesCompare_swap b a]
  cases bytesCompare b a <;> simp [Ordering.swap]

theorem bytesLe_false_iff {a b : Bytes} : bytesLe a b = false ↔ bytesLt b a = true := by
  simp only [bytesLt, bytesLe, decide_eq_true_eq, Bool.not_eq_false', decide_eq_true_eq]
  rw [bytesCompare_swap b a]
  cases bytesCompare b a <;> simp [Ordering.swap]

theorem bytesLe_iff {a b : Bytes} : bytesLe a b = true ↔ bytesLt a b = true ∨ a = b := by
  simp only [bytesLe, bytesLt, Bool.not_eq_true', decide_eq_false_iff_not,
    decide_eq_true_eq, Bool.not_eq_false']
  rw [← bytesCompare_eq_iff]
  cases bytesCompare a b <;> simp

theorem bytesLt_of_le_of_lt {a b c : Bytes} (h1 : bytesLe a b = true)
    (h2 : bytesLt b c = true) : bytesLt a c = true := by
  rcases bytesLe_iff.mp h1 with h | rfl
  · exact bytesLt_trans h h2
  · exact h2

theorem bytesLt_of_lt_of_le {a b c : Bytes} (h1 : bytesLt a b = true)
    (h2 : bytesLe b c = true) : bytesLt a c = true := by
  rcases bytesLe_iff.mp h2 with h | rfl
  · exact bytesLt_trans h1 h
  · exact h1

theorem bytesLe_trans {a b c : Bytes} (h1 : bytesLe a b = true)
    (h2 : bytesLe b c = true) : bytesLe a c = true := by
  rcases bytesLe_iff.mp h1 with h | rfl
  · exact bytesLe_iff.mpr (Or.inl (bytesLt_of_lt_of_le h h2))
  · exact h2

/-- A byte string never compares strictly below one of its prefixes. -/
theorem bytesLt_false_of_hasPrefix : ∀ {k p : Bytes},
    bytesHasPrefix k p = true → bytesLt k p = false
  | [], [], _ => by decide
  | _ :: _, [], _ => by simp [bytesLt, bytesCompare]
  | [], _ :: _, h => by simp [bytesHasPrefix] at h
  | a :: s, b :: ps, h => by
    simp only [bytesHasPrefix, Bool.and_eq_true, beq_iff_eq] at h
    obtain ⟨rfl, htail⟩ := h
    have := bytesLt_false_of_hasPrefix htail
    simp only [bytesLt, decide_eq_false_iff_not] at this ⊢
    rw [bytesCompare]
    simpa using this

/-- Keys matching a prefix are contiguous upward: if `a` is at least the
prefix, below `b`, and `b` matches the prefix, then `a` matches it too. -/
theorem bytesHasPrefix_of_between : ∀ {p a b : Bytes},
    bytesLt a p = false → bytesLt a b = true → bytesHasPrefix b p = true →
    bytesHasPrefix a p = true
  | [], a, b, _, _, _ => by cases a <;> simp [bytesHasPrefix]
  | q :: ps, [], b, h1, _, _ => by simp [bytesLt, bytesCompare] at h1
  | q :: ps, x :: as, [], _, h2, h3 => by simp [bytesHasPrefix] at h3
  | q :: ps, x :: as, y :: bs, h1, h2, h3 => by
    simp only [bytesHasPrefix, Bool.and_eq_true, beq_iff_eq] at h3 ⊢
    obtain ⟨hyq, hbs⟩ := h3
    subst hyq
    simp only [bytesLt, decide_eq_false_iff_not, decide_eq_true_eq] at h1 h2
    rw [bytesCompare] at h1 h2
    by_cases hxq : x < y
    · simp [hxq] at h1
    · by_cases hqx : y < x
      · rw [if_neg hxq, if_pos hqx] at h2
        exact absurd h2 (by decide)
      · have hx : x = y := by omega
        subst hx
        rw [if_neg hxq, if_neg hqx] at h1 h2
        refine ⟨rfl, bytesHasPrefix_of_between ?_ ?_ hbs⟩
        · simp only [bytesLt, decide_eq_false_iff_not]
          exact h1
        · simp only [bytesLt, decide_eq_true_eq]
          exact h2

/-!
## Read-mode failure (claim C3)
-/

/-- C3: when some segment of a bucket handle's path does not resolve to an
existing container, every read-mode operation — `View` itself, `Get`,
`GetAll`, `GetPrefix`, `GetRange`, and the discovery listings — fails with
the `Bucket not found` error carrying the full requested name (never just
the missing segment), and in particular never returns a value with
success.  Read operations run inside a read-only transaction and return no
store, so no container is created and the store is unchanged by
construction. -/
theorem readOps_notFound (b : Bucket)
    (h : resolvePath b.db (bytesSplit b.name b.separator) = none) :
    b.View = .error (.bucketNotFound b.name) ∧
    (∀ k, b.Get k = .error (.bucketNotFound b.name)) ∧
    b.GetAll = .error (.bucketNotFound b.name) ∧
    (∀ pfx, b.GetPrefix pfx = .error (.bucketNotFound b.name)) ∧
    (∀ lo hi, b.GetRange lo hi = .error (.bucketNotFound b.name)) ∧
    b.GetRootBucketNames = .error (.bucketNotFound b.name) ∧
    b.GetAllBucketNames = ([], some (.bucketNotFound b.name)) := by
  have hv : b.View = .error (.bucketNotFound b.name) := by
    simp [Bucket.View, h]
  refine ⟨hv, ?_, ?_, ?_, ?_, ?_, ?_⟩ <;>
    simp [Bucket.Get, Bucket.GetAll, Bucket.GetPrefix, Bucket.GetRange,
      Bucket.GetRootBucketNames, Bucket.GetAllBucketNames, hv, Except.bind,
      Except.map]

/-- Instance of `readOps_notFound`: in the `demoChain` store the path
`A/Z` (`Z` missing under `A`) fails every read operation with the error
naming the whole path `A/Z`. -/
theorem readOps_notFound_witness :
    resolvePath (Bucket.db ⟨demoChain, [65, 47, 90], [47]⟩)
        (bytesSplit [65, 47, 90] [47]) = none ∧
    (Bucket.Get ⟨demoChain, [65, 47, 90], [47]⟩ [1] =
      .error (.bucketNotFound [65, 47, 90])) :=
  ⟨by simp [bytesSplit, findSub, bytesHasPrefix, resolvePath, dbLookup,
      demoChain, resolveGo, lookupEntry, List.find?],
   (readOps_notFound ⟨demoChain, [65, 47, 90], [47]⟩
      (by simp [bytesSplit, findSub, bytesHasPrefix, resolvePath, dbLookup,
        demoChain, resolveGo, lookupEntry, List.find?])).2.1 [1]⟩

/-!
## `GetAll` returns exactly the plain-value pairs (claim C8)
-/

theorem mem_valueItems {es : Bkt} {k v : Bytes} :
    (⟨k, v⟩ : Item) ∈ valueItems es ↔ (k, Entry.val v) ∈ es := by
  simp only [valueItems, List.mem_filterMap]
  constructor
  · rintro ⟨⟨k', e'⟩, hmem, hf⟩
    cases e' with
    | val v' =>
      simp only [Item.mk.injEq, Option.some.injEq] at hf
      obtain ⟨rfl, rfl⟩ := hf
      exact hmem
    | sub es' => simp at hf
  · intro hmem
    exact ⟨(k, .val v), hmem, rfl⟩

/-- C8: on a resolvable bucket, `GetAll` succeeds with exactly the
key/value pairs of the terminal container whose entry is a plain value;
entries that are nested-container markers (nil value in the engine's
iteration) are excluded.  Copying out of transaction-scoped memory is the
identity in this value model. -/
theorem getAll_exact (b : Bucket) (es : Bkt) (hv : b.View = .ok es) :
    b.GetAll = .ok (valueItems es) ∧
    ∀ k v, (⟨k, v⟩ : Item) ∈ valueItems es ↔ (k, Entry.val v) ∈ es := by
  constructor
  · simp [Bucket.GetAll, hv, Except.map]
  · intro k v
    exact mem_valueItems

/-- Instance of `getAll_exact`: in `demoPfx`, `GetAll` on `B` lists the
three plain values and omits the nested container `85`. -/
theorem getAll_exact_witness :
    (Bucket.View ⟨demoPfx, [66], [47]⟩ = .ok
      [([80, 1], .val [1]), ([80, 2], .val [2]), ([85], .sub []), ([90], .val [3])]) ∧
    (Bucket.GetAll ⟨demoPfx, [66], [47]⟩ = .ok
      [⟨[80, 1], [1]⟩, ⟨[80, 2], [2]⟩, ⟨[90], [3]⟩]) := by
  have hv : Bucket.View ⟨demoPfx, [66], [47]⟩ = .ok
      [([80, 1], .val [1]), ([80, 2], .val [2]), ([85], .sub []), ([90], .val [3])] := by
    simp [Bucket.View, bytesSplit, findSub, bytesHasPrefix, resolvePath,
      dbLookup, demoPfx, resolveGo, lookupEntry, List.find?]
  refine ⟨hv, ?_⟩
  have h := (getAll_exact ⟨demoPfx, [66], [47]⟩ _ hv).1
  rw [h]
  simp [valueItems]

/-!
## `Get` on a nested-container key (claim C9)
-/

/-- C9: on a resolvable bucket, `Get` of a key whose entry is itself a
nested sub-container (the engine yields nil for it) fails with the
`Key not found` error carrying the key — exactly the result for an absent
key — and a successful `Get` only ever comes from a plain-value entry, so
a sub-container marker is never returned as a value. -/
theorem get_on_subBucket (b : Bucket) (es : Bkt) (key : Bytes)
    (hv : b.View = .ok es) :
    (∀ es', lookupEntry es key = some (.sub es') →
      b.Get key = .error (.keyNotFound key)) ∧
    (lookupEntry es key = none → b.Get key = .error (.keyNotFound key)) ∧
    (∀ v, b.Get key = .ok v → lookupEntry es key = some (.val v)) := by
  have hg : b.Get key =
      (match bktGet es key with
       | some v => .ok v
       | none => .error (.keyNotFound key)) := by
    simp [Bucket.Get, hv, Except.bind]
  refine ⟨?_, ?_, ?_⟩
  · intro es' hk
    simp [hg, bktGet, hk]
  · intro hk
    simp [hg, bktGet, hk]
  · intro v hok
    rw [hg] at hok
    unfold bktGet at hok
    rcases hl : lookupEntry es key with _ | e
    · simp [hl] at hok
    · cases e with
      | val w => simp [hl] at hok; simp [hok, hl]
      | sub es' => simp [hl] at hok

/-- Instance of `get_on_subBucket`: in `demoPfx`, key `85` names a nested
container, and `Get` fails with `Key not found: 85`. -/
theorem get_on_subBucket_witness :
    (Bucket.View ⟨demoPfx, [66], [47]⟩ = .ok
      [([80, 1], .val [1]), ([80, 2], .val [2]), ([85], .sub []), ([90], .val [3])]) ∧
    (Bucket.Get ⟨demoPfx, [66], [47]⟩ [85] = .error (.keyNotFound [85])) := by
  have hv : Bucket.View ⟨demoPfx, [66], [47]⟩ = .ok
      [([80, 1], .val [1]), ([80, 2], .val [2]), ([85], .sub []), ([90], .val [3])] := by
    simp [Bucket.View, bytesSplit, findSub, bytesHasPrefix, resolvePath,
      dbLookup, demoPfx, resolveGo, lookupEntry, List.find?]
  refine ⟨hv, ?_⟩
  exact (get_on_subBucket ⟨demoPfx, [66], [47]⟩ _ [85] hv).1 []
    (by simp [lookupEntry, List.find?])

/-!
## Write-then-read bridge lemmas
-/

theorem lookupEntry_nil (k : Bytes) : lookupEntry [] k = none := rfl

theorem lookupEntry_cons (e : Bytes × Entry) (rest : Bkt) (k : Bytes) :
    lookupEntry (e :: rest) k = if e.1 = k then some e.2 else lookupEntry rest k := by
  unfold lookupEntry
  rw [List.find?_cons]
  by_cases h : e.1 = k
  · simp [h]
  · have hb : (e.1 == k) = false := by simp [h]
    simp [h, hb]

theorem dbLookup_nil (s : Bytes) : dbLookup [] s = none := rfl

theorem dbLookup_cons (e : Bytes × Bkt) (rest : DBS) (s : Bytes) :
    dbLookup (e :: rest) s = if e.1 = s then some e.2 else dbLookup rest s := by
  unfold dbLookup
  rw [List.find?_cons]
  by_cases h : e.1 = s
  · simp [h]
  · have hb : (e.1 == s) = false := by simp [h]
    simp [h, hb]

theorem lookupEntry_replaceEntry_self {es : Bkt} {k : Bytes} {e : Entry}
    (h : (lookupEntry es k).isSome) :
    lookupEntry (replaceEntry k e es) k = some e := by
  induction es with
  | nil => simp [lookupEntry] at h
  | cons e' rest ih =>
    rw [lookupEntry_cons] at h
    rw [replaceEntry]
    by_cases hk : e'.1 = k
    · simp [hk, lookupEntry_cons]
    · have hb : (e'.1 == k) = false := by simp [hk]
      rw [if_neg (by simp [hk])]
      rw [lookupEntry_cons]
      rw [if_neg hk] at h ⊢
      exact ih h

theorem lookupEntry_replaceEntry_ne {es : Bkt} {k k' : Bytes} {e : Entry}
    (h : k' ≠ k) :
    lookupEntry (replaceEntry k e es) k' = lookupEntry es k' := by
  induction es with
  | nil => simp [replaceEntry]
  | cons e' rest ih =>
    rw [replaceEntry]
    by_cases hk : e'.1 = k
    · rw [if_pos (by simp [hk])]
      rw [lookupEntry_cons, lookupEntry_cons]
      rw [if_neg (fun hh => h hh.symm), if_neg (fun hh => h (hk ▸ hh).symm)]
    · rw [if_neg (by simp [hk])]
      rw [lookupEntry_cons, lookupEntry_cons]
      by_cases hk' : e'.1 = k'
      · rw [if_pos hk', if_pos hk']
      · rw [if_neg hk', if_neg hk']
        exact ih

theorem lookupEntry_insertSorted_self {es : Bkt} {k : Bytes} {e : Entry}
    (h : lookupEntry es k = none) :
    lookupEntry (insertSorted k e es) k = some e := by
  induction es with
  | nil => simp [insertSorted, lookupEntry_cons]
  | cons e' rest ih =>
    rw [lookupEntry_cons] at h
    by_cases hk : e'.1 = k
    · simp [hk] at h
    · rw [if_neg hk] at h
      rw [insertSorted]
      by_cases hlt : bytesLt k e'.1 = true
      · simp [hlt, lookupEntry_cons]
      · simp only [hlt, Bool.false_eq_true, if_neg, not_false_eq_true]
        rw [lookupEntry_cons, if_neg hk]
        exact ih h

theorem lookupEntry_insertSorted_ne {es : Bkt} {k k' : Bytes} {e : Entry}
    (h : k' ≠ k) :
    lookupEntry (insertSorted k e es) k' = lookupEntry es k' := by
  have hne : k ≠ k' := fun hh => h hh.symm
  induction es with
  | nil => simp [insertSorted, lookupEntry_cons, hne]
  | cons e' rest ih =>
    rw [insertSorted]
    by_cases hlt : bytesLt k e'.1 = true
    · rw [if_pos hlt, lookupEntry_cons, if_neg (fun hh => h hh.symm)]
    · rw [if_neg (by simp [hlt])]
      rw [lookupEntry_cons, lookupEntry_cons]
      by_cases hk' : e'.1 = k'
      · rw [if_pos hk', if_pos hk']
      · rw [if_neg hk', if_neg hk']
        exact ih

theorem lookupEntry_putVal_self {es es' : Bkt} {k v : Bytes}
    (h : putVal es k v = .ok es') :
    lookupEntry es' k = some (.val v) := by
  unfold putVal at h
  by_cases hk : k = []
  · simp [hk] at h
  · simp only [hk, if_neg, not_false_eq_true] at h
    rcases hl : lookupEntry es k with _ | e
    · rw [hl] at h
      simp only [Except.ok.injEq] at h
      rw [← h]
      exact lookupEntry_insertSorted_self hl
    · rw [hl] at h
      cases e with
      | val w =>
        simp only [Except.ok.injEq] at h
        rw [← h]
        exact lookupEntry_replaceEntry_self (by simp [hl])
      | sub es'' => simp at h

theorem lookupEntry_putVal_ne {es es' : Bkt} {k k' v : Bytes}
    (hne : k' ≠ k) (h : putVal es k v = .ok es') :
    lookupEntry es' k' = lookupEntry es k' := by
  unfold putVal at h
  by_cases hk : k = []
  · simp [hk] at h
  · simp only [hk, if_neg, not_false_eq_true] at h
    rcases hl : lookupEntry es k with _ | e
    · rw [hl] at h
      simp only [Except.ok.injEq] at h
      rw [← h]
      exact lookupEntry_insertSorted_ne hne
    · rw [hl] at h
      cases e with
      | val w =>
        simp only [Except.ok.injEq] at h
        rw [← h]
        exact lookupEntry_replaceEntry_ne hne
      | sub es'' => simp at h

theorem dbLookup_dbReplace_self {db : DBS} {s : Bytes} {b : Bkt}
    (h : (dbLookup db s).isSome) :
    dbLookup (dbReplace s b db) s = some b := by
  induction db with
  | nil => simp [dbLookup] at h
  | cons e' rest ih =>
    rw [dbLookup_cons] at h
    rw [dbReplace]
    by_cases hk : e'.1 = s
    · simp [hk, dbLookup_cons]
    · rw [if_neg (by simp [hk])]
      rw [dbLookup_cons]
      rw [if_neg hk] at h ⊢
      exact ih h

theorem dbLookup_dbInsertSorted_self {db : DBS} {s : Bytes} {b : Bkt}
    (h : dbLookup db s = none) :
    dbLookup (dbInsertSorted s b db) s = some b := by
  induction db with
  | nil => simp [dbInsertSorted, dbLookup_cons]
  | cons e' rest ih =>
    rw [dbLookup_cons] at h
    by_cases hk : e'.1 = s
    · simp [hk] at h
    · rw [if_neg hk] at h
      rw [dbInsertSorted]
      by_cases hlt : bytesLt s e'.1 = true
      · simp [hlt, dbLookup_cons]
      · simp only [hlt, Bool.false_eq_true, if_neg, not_false_eq_true]
        rw [dbLookup_cons, if_neg hk]
        exact ih h

/-- A successful update body resolves in the committed terminal container:
walking the same segments after `updateGo` reaches exactly the container
the body produced. -/
theorem resolveGo_updateGo {fn : Bkt → Except Err Bkt} :
    ∀ {segs : List Bytes} {es es₂ : Bkt}, updateGo fn segs es = .ok es₂ →
    ∃ b₀ b₁, fn b₀ = .ok b₁ ∧ resolveGo es₂ segs = some b₁
  | [], es, es₂, h => ⟨es, es₂, h, rfl⟩
  | s :: rest, es, es₂, h => by
    rw [updateGo] at h
    by_cases hs : s = []
    · simp [hs] at h
    · simp only [hs, if_neg, not_false_eq_true] at h
      rcases hl : lookupEntry es s with _ | e
      · simp only [hl] at h
        rcases hu : updateGo fn rest ([] : Bkt) with e' | esr
        · simp [hu, Except.map] at h
        · simp only [hu, Except.map, Except.ok.injEq] at h
          obtain ⟨b₀, b₁, hfn, hres⟩ := resolveGo_updateGo hu
          refine ⟨b₀, b₁, hfn, ?_⟩
          rw [← h, resolveGo, lookupEntry_insertSorted_self hl]
          exact hres
      · simp only [hl] at h
        cases e with
        | val w => simp at h
        | sub es' =>
          rcases hu : updateGo fn rest es' with e' | esr
          · simp [hu, Except.map] at h
          · simp only [hu, Except.map, Except.ok.injEq] at h
            obtain ⟨b₀, b₁, hfn, hres⟩ := resolveGo_updateGo hu
            refine ⟨b₀, b₁, hfn, ?_⟩
            rw [← h, resolveGo,
              lookupEntry_replaceEntry_self (by simp [hl])]
            exact hres

/-- A successful `Bucket.Update` leaves the terminal container produced by
the body at the bucket's path in the committed store. -/
theorem update_resolves {b : Bucket} {fn : Bkt → Except Err Bkt} {db' : DBS}
    (h : b.Update fn = .ok db') :
    ∃ b₀ b₁, fn b₀ = .ok b₁ ∧
      resolvePath db' (bytesSplit b.name b.separator) = some b₁ := by
  unfold Bucket.Update at h
  rcases hsp : bytesSplit b.name b.separator with _ | ⟨s, rest⟩
  · rw [hsp] at h
    simp at h
  · rw [hsp] at h
    by_cases hs : s = []
    · simp [hs] at h
    · simp only [hs, if_neg, not_false_eq_true] at h
      rcases hl : dbLookup b.db s with _ | es
      · simp only [hl] at h
        rcases hu : updateGo fn rest ([] : Bkt) with e' | esr
        · simp [hu, Except.map] at h
        · simp only [hu, Except.map, Except.ok.injEq] at h
          obtain ⟨b₀, b₁, hfn, hres⟩ := resolveGo_updateGo hu
          refine ⟨b₀, b₁, hfn, ?_⟩
          rw [← h, resolvePath, dbLookup_dbInsertSorted_self hl]
          exact hres
      · simp only [hl] at h
        rcases hu : updateGo fn rest es with e' | esr
        · simp [hu, Except.map] at h
        · simp only [hu, Except.map, Except.ok.injEq] at h
          obtain ⟨b₀, b₁, hfn, hres⟩ := resolveGo_updateGo hu
          refine ⟨b₀, b₁, hfn, ?_⟩
          rw [← h, resolvePath, dbLookup_dbReplace_self (by simp [hl])]
          exact hres

/-!
## Insert/Get round trip (claim C4)
-/

/-- C4: a successful `Insert` of a key/value pair through a bucket handle,
followed by `Get` of the same key on a handle with the same path and
separator over the committed store, returns exactly the inserted value
with no error — also when a previous value existed for the key, since the
put silently overwrites (the pre-store `b.db` is arbitrary here). -/
theorem insert_get_roundtrip (b : Bucket) (key value : Bytes) (db' : DBS)
    (h : b.Insert key value = .ok db') :
    Bucket.Get ⟨db', b.name, b.separator⟩ key = .ok value := by
  unfold Bucket.Insert at h
  obtain ⟨b₀, b₁, hput, hres⟩ := update_resolves h
  have hview : Bucket.View ⟨db', b.name, b.separator⟩ = .ok b₁ := by
    simp [Bucket.View, hres]
  have hlook := lookupEntry_putVal_self hput
  simp [Bucket.Get, hview, Except.bind, bktGet, hlook]

/-- Instance of `insert_get_roundtrip`: inserting `1 ↦ 9` under the fresh
path `B` in the empty store, then reading it back. -/
theorem insert_get_roundtrip_witness :
    (Bucket.Insert ⟨[], [66], [47]⟩ [1] [9] = .ok [([66], [([1], .val [9])])]) ∧
    Bucket.Get ⟨[([66], [([1], .val [9])])], [66], [47]⟩ [1] = .ok [9] := by
  have hins : Bucket.Insert ⟨[], [66], [47]⟩ [1] [9] =
      .ok [([66], [([1], .val [9])])] := by
    simp [Bucket.Insert, Bucket.Update, bytesSplit, findSub, bytesHasPrefix,
      dbLookup, updateGo, putVal, lookupEntry, insertSorted, dbInsertSorted,
      List.find?, Except.map]
  exact ⟨hins, insert_get_roundtrip ⟨[], [66], [47]⟩ [1] [9] _ hins⟩

/-!
## `InsertAll` atomicity (claim C5)
-/

theorem lastValue_none_mem {items : List Item} {k : Bytes}
    (h : lastValue items k = none) : ∀ it ∈ items, it.Key ≠ k := by
  induction items with
  | nil => simp
  | cons it rest ih =>
    rw [lastValue] at h
    rcases hr : lastValue rest k with _ | v
    · rw [hr] at h
      intro it' hmem
      rcases List.mem_cons.mp hmem with rfl | hmem'
      · intro hk
        simp [hk] at h
      · exact ih hr it' hmem'
    · simp [hr] at h

theorem putAll_preserves {items : List Item} :
    ∀ {es es' : Bkt} {k : Bytes}, (∀ it ∈ items, it.Key ≠ k) →
    putAll items es = .ok es' → lookupEntry es' k = lookupEntry es k := by
  induction items with
  | nil =>
    intro es es' k _ h
    rw [putAll] at h
    simp only [Except.ok.injEq] at h
    rw [h]
  | cons it rest ih =>
    intro es es' k hne h
    rw [putAll] at h
    rcases hp : putVal es it.Key it.Value with e | es₁
    · rw [hp] at h
      simp at h
    · rw [hp] at h
      have h1 := ih (fun it' hm => hne it' (List.mem_cons_of_mem _ hm)) h
      have h2 := lookupEntry_putVal_ne
        (fun hk => hne it (List.mem_cons_self _ _) hk.symm) hp
      rw [h1, h2]

theorem lookupEntry_putAll {items : List Item} :
    ∀ {es es' : Bkt} {k v : Bytes}, putAll items es = .ok es' →
    lastValue items k = some v → lookupEntry es' k = some (.val v) := by
  induction items with
  | nil =>
    intro es es' k v _ hv
    simp [lastValue] at hv
  | cons it rest ih =>
    intro es es' k v h hv
    rw [putAll] at h
    rcases hp : putVal es it.Key it.Value with e | es₁
    · rw [hp] at h
      simp at h
    · rw [hp] at h
      rw [lastValue] at hv
      rcases hr : lastValue rest k with _ | v'
      · rw [hr] at hv
        by_cases hk : it.Key = k
        · rw [if_pos (by simp [hk])] at hv
          simp only [Option.some.injEq] at hv
          have hpres := putAll_preserves (lastValue_none_mem hr) h
          rw [hpres, ← hv, ← hk]
          exact lookupEntry_putVal_self hp
        · rw [if_neg (by simp [hk])] at hv
          simp at hv
      · rw [hr] at hv
        simp only [Option.some.injEq] at hv
        subst hv
        exact ih h hr

/-- C5: `InsertAll` puts all items inside one write transaction.  If any
put fails, the transaction aborts and the store the caller holds is
unchanged — none of the pairs put before the failure are visible.  On
success every item is visible: for each key the last listed value is what
`Get` returns on the committed store. -/
theorem insertAll_atomic (b : Bucket) (items : List Item) :
    (∀ e, b.InsertAll items = .error e →
      commit b.db (b.InsertAll items) = b.db) ∧
    (∀ db', b.InsertAll items = .ok db' →
      ∀ k v, lastValue items k = some v →
        Bucket.Get ⟨db', b.name, b.separator⟩ k = .ok v) := by
  constructor
  · intro e he
    simp [commit, he]
  · intro db' h k v hv
    unfold Bucket.InsertAll at h
    obtain ⟨b₀, b₁, hputs, hres⟩ := update_resolves h
    have hview : Bucket.View ⟨db', b.name, b.separator⟩ = .ok b₁ := by
      simp [Bucket.View, hres]
    have hlook := lookupEntry_putAll hputs hv
    simp [Bucket.Get, hview, Except.bind, bktGet, hlook]

/-- Instance of `insertAll_atomic`: a batch holding an item with an empty
key aborts and leaves the store unchanged even though its first item was
put; a clean batch commits with both items readable, the later value
winning for a repeated key. -/
theorem insertAll_atomic_witness :
    commit demoKV (Bucket.InsertAll ⟨demoKV, [66], [47]⟩
      [⟨[7], [1]⟩, ⟨[], [2]⟩]) = demoKV ∧
    Bucket.Get ⟨commit demoKV (Bucket.InsertAll ⟨demoKV, [66], [47]⟩
      [⟨[7], [1]⟩, ⟨[7], [2]⟩]), [66], [47]⟩ [7] = .ok [2] := by
  constructor
  · refine (insertAll_atomic ⟨demoKV, [66], [47]⟩ [⟨[7], [1]⟩, ⟨[], [2]⟩]).1
      .keyRequired ?_
    simp [Bucket.InsertAll, Bucket.Update, bytesSplit, findSub,
      bytesHasPrefix, dbLookup, demoKV, updateGo, putAll, putVal,
      lookupEntry, insertSorted, List.find?, Except.map]
  · have hok : Bucket.InsertAll ⟨demoKV, [66], [47]⟩ [⟨[7], [1]⟩, ⟨[7], [2]⟩] =
        .ok [([66], [([7], .val [2]), ([10], .val [1]), ([20], .val [2]),
          ([30], .val [3]), ([40], .val [4]), ([50], .val [5])])] := by
      simp [Bucket.InsertAll, Bucket.Update, bytesSplit, findSub,
        bytesHasPrefix, dbLookup, demoKV, updateGo, putAll, putVal,
        lookupEntry, insertSorted, replaceEntry, dbReplace, bytesLt,
        bytesCompare, List.find?, Except.map]
    rw [hok]
    exact (insertAll_atomic ⟨demoKV, [66], [47]⟩ [⟨[7], [1]⟩, ⟨[7], [2]⟩]).2
      _ hok [7] [2] (by simp [lastValue])

/-!
## Cursor-scan helpers
-/

theorem not_bytesLt_eq_bytesLe (a b : Bytes) : (!bytesLt a b) = bytesLe b a := by
  cases hl : bytesLt a b
  · simp [bytesLt_false_iff.mp hl]
  · simp
    cases hle : bytesLe b a
    · rfl
    · exact absurd hl (by simp [bytesLt_false_iff.mpr hle])

theorem bytesLe_of_lt {a b : Bytes} (h : bytesLt a b = true) : bytesLe a b = true :=
  bytesLe_iff.mpr (Or.inl h)

theorem seekCursor_sorted_eq_filter {es : Bkt} {t : Bytes} (hs : KeysSorted es) :
    seekCursor es t = es.filter (fun e => !bytesLt e.1 t) := by
  induction es with
  | nil => rfl
  | cons e rest ih =>
    obtain ⟨hhead, htail⟩ := List.pairwise_cons.mp hs
    unfold seekCursor at *
    rw [List.dropWhile_cons, List.filter_cons]
    cases hlt : bytesLt e.1 t
    · simp only [hlt, Bool.false_eq_true, if_neg, not_false_eq_true,
        Bool.not_false, if_pos]
      congr 1
      refine (List.filter_eq_self.mpr ?_).symm
      intro x hx
      cases hxt : bytesLt x.1 t
      · simp
      · exact absurd (bytesLt_trans (hhead x hx) hxt) (by simp [hlt])
    · simp only [hlt, if_pos, Bool.not_true, Bool.false_eq_true, if_neg,
        not_false_eq_true]
      exact ih htail

theorem takeWhile_le_sorted {l : Bkt} {hi : Bytes} (hs : KeysSorted l) :
    l.takeWhile (fun e => bytesLe e.1 hi) = l.filter (fun e => bytesLe e.1 hi) := by
  induction l with
  | nil => rfl
  | cons e rest ih =>
    obtain ⟨hhead, htail⟩ := List.pairwise_cons.mp hs
    rw [List.takeWhile_cons, List.filter_cons]
    cases hle : bytesLe e.1 hi
    · simp only [Bool.false_eq_true, if_neg, not_false_eq_true]
      refine (List.filter_eq_nil_iff.mpr ?_).symm
      intro x hx
      simp only [Bool.not_eq_true]
      cases hxle : bytesLe x.1 hi
      · rfl
      · exact absurd (bytesLe_of_lt (bytesLt_of_lt_of_le (hhead x hx) hxle))
          (by simp [hle])
    · simp only [if_pos]
      rw [ih htail]

theorem rangeLoop_eq_valueItems (hi : Bytes) (l : Bkt) :
    rangeLoop hi l = valueItems (l.takeWhile (fun e => bytesLe e.1 hi)) := by
  induction l with
  | nil => rfl
  | cons e rest ih =>
    rw [rangeLoop, List.takeWhile_cons]
    cases hle : bytesLe e.1 hi
    · simp [valueItems]
    · simp only [if_pos]
      cases e with
      | mk k en =>
        cases en with
        | val v => simp [valueItems, ih]
        | sub es' => simp [valueItems, ih]

theorem valueItems_nil : valueItems [] = [] := rfl

theorem valueItems_cons_val (k v : Bytes) (rest : Bkt) :
    valueItems ((k, .val v) :: rest) = ⟨k, v⟩ :: valueItems rest := rfl

theorem valueItems_cons_sub (k : Bytes) (es' : List (Bytes × Entry)) (rest : Bkt) :
    valueItems ((k, .sub es') :: rest) = valueItems rest := rfl

theorem valueItems_filter_key (q : Bytes → Bool) (es : Bkt) :
    valueItems (es.filter (fun e => q e.1)) =
      (valueItems es).filter (fun it => q it.Key) := by
  induction es with
  | nil => rfl
  | cons e rest ih =>
    rw [List.filter_cons]
    obtain ⟨k, en⟩ := e
    cases en with
    | val v =>
      rw [valueItems_cons_val, List.filter_cons]
      cases hq : q k
      · simpa [hq] using ih
      · simp only [if_pos]
        rw [valueItems_cons_val, ih]
    | sub es' =>
      rw [valueItems_cons_sub]
      cases hq : q k
      · simpa [hq] using ih
      · simp only [if_pos]
        rw [valueItems_cons_sub, ih]

/-!
## Range scan (claim C6)
-/

/-- C6: on a resolvable bucket whose entries are in the engine's sorted
key order, `GetRange lo hi` succeeds with exactly the key/value pairs
whose key `k` satisfies `lo ≤ k` and `k ≤ hi` under lexicographic byte
comparison, both bounds inclusive: it is the plain-value entries of the
container filtered to the closed range, as the seek-then-scan cursor loop
produces. -/
theorem getRange_exact (b : Bucket) (es : Bkt) (lo hi : Bytes)
    (hv : b.View = .ok es) (hs : KeysSorted es) :
    b.GetRange lo hi = .ok ((valueItems es).filter
      (fun it => bytesLe lo it.Key && bytesLe it.Key hi)) ∧
    ∀ k v, (⟨k, v⟩ : Item) ∈ (valueItems es).filter
        (fun it => bytesLe lo it.Key && bytesLe it.Key hi) ↔
      ((k, Entry.val v) ∈ es ∧ bytesLe lo k = true ∧ bytesLe k hi = true) := by
  constructor
  · have hseek := seekCursor_sorted_eq_filter (t := lo) hs
    have hsort' : KeysSorted (es.filter (fun e => !bytesLt e.1 lo)) :=
      hs.sublist (List.filter_sublist es)
    rw [Bucket.GetRange, hv]
    simp only [Except.map]
    rw [rangeLoop_eq_valueItems, hseek, takeWhile_le_sorted hsort',
      List.filter_filter]
    have hcong : es.filter (fun e => bytesLe e.1 hi && !bytesLt e.1 lo) =
        es.filter (fun e => bytesLe lo e.1 && bytesLe e.1 hi) := by
      refine List.filter_congr ?_
      intro e _
      rw [not_bytesLt_eq_bytesLe]
      rw [Bool.and_comm]
    rw [hcong, valueItems_filter_key (fun k => bytesLe lo k && bytesLe k hi)]
  · intro k v
    rw [List.mem_filter]
    rw [mem_valueItems]
    simp

/-- Instance of `getRange_exact`: in `demoKV` the range `[20, 40]` returns
exactly the pairs at keys `20, 30, 40`. -/
theorem getRange_exact_witness :
    (Bucket.View ⟨demoKV, [66], [47]⟩ = .ok
      [([10], .val [1]), ([20], .val [2]), ([30], .val [3]),
       ([40], .val [4]), ([50], .val [5])]) ∧
    Bucket.GetRange ⟨demoKV, [66], [47]⟩ [20] [40] =
      .ok [⟨[20], [2]⟩, ⟨[30], [3]⟩, ⟨[40], [4]⟩] := by
  have hv : Bucket.View ⟨demoKV, [66], [47]⟩ = .ok
      [([10], .val [1]), ([20], .val [2]), ([30], .val [3]),
       ([40], .val [4]), ([50], .val [5])] := by
    simp [Bucket.View, bytesSplit, findSub, bytesHasPrefix, resolvePath,
      dbLookup, demoKV, resolveGo, lookupEntry, List.find?]
  refine ⟨hv, ?_⟩
  have h := (getRange_exact ⟨demoKV, [66], [47]⟩ _ [20] [40] hv (by decide)).1
  rw [h]
  simp [valueItems, bytesLe, bytesCompare]

/-!
## Prefix scan (claims C7 and C10)
-/

/-- With an empty prefix the cursor loop never exits: every key — and the
nil key of the exhausted cursor — matches, so any amount of fuel runs
out.  This is the loop `for k, v := cursor.Seek(prefix);
bytes.HasPrefix(k, prefix); k, v = cursor.Next()` spinning on `k = nil`. -/
theorem prefixLoop_empty_pfx : ∀ (fuel : Nat) (l : Bkt),
    prefixLoop [] fuel l = .error .noFuel
  | 0, _ => rfl
  | fuel + 1, [] => by
    rw [prefixLoop]
    simp only [bytesHasPrefix, if_pos]
    exact prefixLoop_empty_pfx fuel []
  | fuel + 1, e :: rest => by
    rw [prefixLoop]
    simp only [bytesHasPrefix, if_true]
    rw [prefixLoop_empty_pfx fuel rest]
    rfl

/-- With a non-empty prefix, fuel exceeding the number of remaining
entries is enough, and the loop yields the plain-value pairs of the
longest matching prefix of the cursor's remaining entries. -/
theorem prefixLoop_ok {pfx : Bytes} (hne : pfx ≠ []) :
    ∀ (l : Bkt) (fuel : Nat), l.length < fuel →
    prefixLoop pfx fuel l =
      .ok (valueItems (l.takeWhile (fun e => bytesHasPrefix e.1 pfx)))
  | [], fuel, hf => by
    obtain ⟨f, rfl⟩ : ∃ f, fuel = f + 1 := ⟨fuel - 1, by omega⟩
    rw [prefixLoop]
    have : bytesHasPrefix [] pfx = false := by
      cases pfx with
      | nil => exact absurd rfl hne
      | cons q ps => rfl
    rw [this]
    simp [valueItems]
  | e :: rest, fuel, hf => by
    obtain ⟨f, rfl⟩ : ∃ f, fuel = f + 1 := ⟨fuel - 1, by omega⟩
    rw [prefixLoop, List.takeWhile_cons]
    cases hp : bytesHasPrefix e.1 pfx
    · simp [valueItems]
    · simp only [if_pos]
      have hlen : rest.length < f := by
        simp only [List.length_cons] at hf
        omega
      rw [prefixLoop_ok hne rest f hlen]
      obtain ⟨k, en⟩ := e
      cases en with
      | val v => simp [Except.map, valueItems_cons_val]
      | sub es' => simp [Except.map, valueItems_cons_sub]

/-- On a sorted suffix whose entries are all `≥ pfx`, the scan-while-match
loop takes exactly the entries matching the prefix: matching keys are
contiguous from the seek position. -/
theorem takeWhile_hasPre_sorted {l : Bkt} {pfx : Bytes} (hs : KeysSorted l)
    (hge : ∀ x ∈ l, bytesLt x.1 pfx = false) :
    l.takeWhile (fun e => bytesHasPrefix e.1 pfx) =
      l.filter (fun e => bytesHasPrefix e.1 pfx) := by
  induction l with
  | nil => rfl
  | cons e rest ih =>
    obtain ⟨hhead, htail⟩ := List.pairwise_cons.mp hs
    rw [List.takeWhile_cons, List.filter_cons]
    cases hp : bytesHasPrefix e.1 pfx
    · simp only [Bool.false_eq_true, if_neg, not_false_eq_true]
      refine (List.filter_eq_nil_iff.mpr ?_).symm
      intro x hx
      simp only [Bool.not_eq_true]
      cases hxp : bytesHasPrefix x.1 pfx
      · rfl
      · have := bytesHasPrefix_of_between
          (hge e (List.mem_cons_self _ _)) (hhead x hx) hxp
        exact absurd this (by simp [hp])
    · simp only [if_pos]
      rw [ih htail (fun x hx => hge x (List.mem_cons_of_mem _ hx))]

/-- C7 (amended): on a resolvable bucket in the engine's sorted key order
and for a **non-empty** prefix, `GetPrefix` succeeds with exactly the
key/value pairs whose key starts with the prefix byte sequence, the
contiguous matching run from the seek position; keys without the prefix
are excluded.  (For the empty prefix the source loop never returns, see
`getPrefix_empty_diverges`.) -/
theorem getPrefix_exact (b : Bucket) (es : Bkt) (pfx : Bytes)
    (hne : pfx ≠ []) (hv : b.View = .ok es) (hs : KeysSorted es) :
    b.GetPrefix pfx = .ok ((valueItems es).filter
      (fun it => bytesHasPrefix it.Key pfx)) ∧
    ∀ k v, (⟨k, v⟩ : Item) ∈ (valueItems es).filter
        (fun it => bytesHasPrefix it.Key pfx) ↔
      ((k, Entry.val v) ∈ es ∧ bytesHasPrefix k pfx = true) := by
  constructor
  · rw [Bucket.GetPrefix, hv]
    simp only [Except.bind]
    have hlen : (seekCursor es pfx).length < es.length + 1 :=
      Nat.lt_succ_of_le (List.dropWhile_sublist _).length_le
    rw [prefixLoop_ok hne _ _ hlen]
    have hseek := seekCursor_sorted_eq_filter (t := pfx) hs
    have hsort' : KeysSorted (es.filter (fun e => !bytesLt e.1 pfx)) :=
      hs.sublist (List.filter_sublist es)
    have hge : ∀ x ∈ es.filter (fun e => !bytesLt e.1 pfx),
        bytesLt x.1 pfx = false := by
      intro x hx
      have := (List.mem_filter.mp hx).2
      simpa using this
    rw [hseek, takeWhile_hasPre_sorted hsort' hge, List.filter_filter]
    have hcong : es.filter (fun e => bytesHasPrefix e.1 pfx && !bytesLt e.1 pfx) =
        es.filter (fun e => bytesHasPrefix e.1 pfx) := by
      refine List.filter_congr ?_
      intro e _
      cases hp : bytesHasPrefix e.1 pfx
      · rfl
      · simp [bytesLt_false_of_hasPrefix hp]
    rw [hcong, valueItems_filter_key (fun k => bytesHasPrefix k pfx)]
  · intro k v
    rw [List.mem_filter, mem_valueItems]

/-- Instance of `getPrefix_exact`: in `demoPfx` the prefix `80` returns
exactly the two `80·…` pairs and excludes key `90` (and the nested
container `85`). -/
theorem getPrefix_exact_witness :
    (Bucket.View ⟨demoPfx, [66], [47]⟩ = .ok
      [([80, 1], .val [1]), ([80, 2], .val [2]), ([85], .sub []), ([90], .val [3])]) ∧
    Bucket.GetPrefix ⟨demoPfx, [66], [47]⟩ [80] =
      .ok [⟨[80, 1], [1]⟩, ⟨[80, 2], [2]⟩] := by
  have hv : Bucket.View ⟨demoPfx, [66], [47]⟩ = .ok
      [([80, 1], .val [1]), ([80, 2], .val [2]), ([85], .sub []), ([90], .val [3])] := by
    simp [Bucket.View, bytesSplit, findSub, bytesHasPrefix, resolvePath,
      dbLookup, demoPfx, resolveGo, lookupEntry, List.find?]
  refine ⟨hv, ?_⟩
  have h := (getPrefix_exact ⟨demoPfx, [66], [47]⟩ _ [80] (by decide) hv
    (by decide)).1
  rw [h]
  simp [valueItems, bytesHasPrefix]

/-- C7 (counterexample to the unamended claim): `GetPrefix` with the empty
prefix on the resolvable bucket `B` of `demoPfx` does not return the
matching pairs (which would be all three plain values): the cursor loop
never exits — modelled by the fuel marker — because the exhausted cursor's
nil key still matches the empty prefix. -/
theorem getPrefix_empty_diverges :
    Bucket.GetPrefix ⟨demoPfx, [66], [47]⟩ [] = .error .noFuel := by
  have hv : Bucket.View ⟨demoPfx, [66], [47]⟩ = .ok
      [([80, 1], .val [1]), ([80, 2], .val [2]), ([85], .sub []), ([90], .val [3])] := by
    simp [Bucket.View, bytesSplit, findSub, bytesHasPrefix, resolvePath,
      dbLookup, demoPfx, resolveGo, lookupEntry, List.find?]
  rw [Bucket.GetPrefix, hv]
  simp only [Except.bind]
  rw [prefixLoop_empty_pfx]

/-- C10: the `MapPrefix` cursor loop terminates for every non-empty
prefix — fuel one beyond the remaining entry count always suffices, since
the exhausted cursor's nil key fails the non-empty-prefix match — and
only under that precondition: with the empty prefix the loop exhausts any
fuel, from any cursor position. -/
theorem mapPrefix_termination :
    (∀ (pfx : Bytes) (l : Bkt), pfx ≠ [] →
      prefixLoop pfx (l.length + 1) l ≠ .error .noFuel) ∧
    (∀ (fuel : Nat) (l : Bkt), prefixLoop [] fuel l = .error .noFuel) := by
  constructor
  · intro pfx l hne
    rw [prefixLoop_ok hne l (l.length + 1) (Nat.lt_succ_self _)]
    simp
  · exact prefixLoop_empty_pfx

/-- Instance of `mapPrefix_termination`: the loop with prefix `80` over
the `demoPfx` entries exits within its fuel bound. -/
theorem mapPrefix_termination_witness :
    prefixLoop [80]
      (([([80, 1], Entry.val [1]), ([80, 2], Entry.val [2]), ([85], Entry.sub []),
        ([90], Entry.val [3])] : Bkt).length + 1)
      [([80, 1], Entry.val [1]), ([80, 2], Entry.val [2]), ([85], Entry.sub []),
        ([90], Entry.val [3])] ≠ .error .noFuel :=
  mapPrefix_termination.1 [80] _ (by decide)

/-!
## `DeleteBucket` on a nested path (claim C1)

At the last segment the source runs `bucket.DeleteBucket(buckets[0])` —
the **first** path segment — on the terminal container's parent
(`mbuckets.go` line 234), instead of the last segment.  On the store
`A ⊃ B ⊃ C` (the repository's own `TestDeleteNestedBucket` scenario with
`Bucket1/Bucket2/Bucket3`), deleting `A/B/C` therefore asks container `B`
to delete a child named `A`, which fails with the engine's
`ErrBucketNotFound` and removes nothing; the test instead expects success
with `C` removed and `{A, A/B}` remaining.
-/

/-- C1 (code bug): on the chain store, `DeleteBucket` of the existing
nested path `A/B/C` fails with the engine's bucket-not-found error and
leaves the store unchanged, although the terminal container resolves; the
one-segment case `A` does work, deleting the whole subtree. -/
theorem deleteBucket_wrongChild :
    Bucket.DeleteBucket ⟨demoChain, [65, 47, 66, 47, 67], [47]⟩ =
      .error .engineBucketNotFound ∧
    commit demoChain
      (Bucket.DeleteBucket ⟨demoChain, [65, 47, 66, 47, 67], [47]⟩) =
      demoChain ∧
    resolvePath demoChain [[65], [66], [67]] = some [] ∧
    Bucket.DeleteBucket ⟨demoChain, [65], [47]⟩ = .ok [] := by
  have hdel : Bucket.DeleteBucket ⟨demoChain, [65, 47, 66, 47, 67], [47]⟩ =
      .error .engineBucketNotFound := by
    simp [Bucket.DeleteBucket, bytesSplit, findSub, bytesHasPrefix,
      demoChain, dbLookup, deleteWalk, bktDeleteChild, lookupEntry,
      List.find?, Except.map]
  refine ⟨hdel, ?_, ?_, ?_⟩
  · rw [hdel]
    rfl
  · simp [resolvePath, resolveGo, dbLookup, demoChain, lookupEntry, List.find?]
  · simp [Bucket.DeleteBucket, bytesSplit, findSub, bytesHasPrefix,
      demoChain, dbDeleteBucket, dbLookup, dbRemove, List.find?]

/-!
## Splitting a joined name recovers the segments (single-byte separator)
-/

theorem findSub_single_none {c : Nat} : ∀ {s : Bytes}, c ∉ s → findSub s [c] = none
  | [], _ => by
    rw [findSub]
    simp [bytesHasPrefix]
  | a :: s, h => by
    have hx : c ≠ a ∧ c ∉ s := by simpa using h
    have hne : ¬ a = c := fun hh => hx.1 hh.symm
    rw [findSub]
    have hpre : bytesHasPrefix (a :: s) [c] = false := by
      simp [bytesHasPrefix, hne]
    rw [hpre]
    simp [findSub_single_none hx.2]

theorem findSub_single_append {c : Nat} : ∀ {a : Bytes} (r : Bytes), c ∉ a →
    findSub (a ++ c :: r) [c] = some a.length
  | [], r, _ => by
    rw [List.nil_append, findSub]
    simp [bytesHasPrefix]
  | x :: a', r, h => by
    have hx : c ≠ x ∧ c ∉ a' := by simpa using h
    have hne : ¬ x = c := fun hh => hx.1 hh.symm
    rw [List.cons_append, findSub]
    have hpre : bytesHasPrefix (x :: (a' ++ c :: r)) [c] = false := by
      simp [bytesHasPrefix, hne]
    simp only [List.cons_append, hpre, Bool.false_eq_true, if_neg,
      not_false_eq_true]
    rw [findSub_single_append r hx.2]
    simp

theorem bytesSplit_single_of_not_mem {c : Nat} {s : Bytes} (h : c ∉ s) :
    bytesSplit s [c] = [s] := by
  rw [bytesSplit, findSub_single_none h,
    dif_neg (show ¬([c] : Bytes) = [] by simp)]

theorem bytesSplit_joinName {c : Nat} : ∀ {segs : List Bytes}, segs ≠ [] →
    (∀ x ∈ segs, c ∉ x) → bytesSplit (joinName [c] segs) [c] = segs
  | [], h, _ => absurd rfl h
  | [x], _, hc => by
    rw [joinName]
    exact bytesSplit_single_of_not_mem (hc x (by simp))
  | x :: y :: rest, _, hc => by
    have hx : c ∉ x := hc x (by simp)
    have hrec := @bytesSplit_joinName c (y :: rest) (by simp)
      (fun z hz => hc z (List.mem_cons_of_mem _ hz))
    rw [joinName, bytesSplit]
    have hshape : x ++ [c] ++ joinName [c] (y :: rest) =
        x ++ c :: joinName [c] (y :: rest) := by
      simp
    rw [hshape, findSub_single_append _ hx]
    rw [dif_neg (show ¬([c] : Bytes) = [] by simp)]
    simp only [List.length_singleton]
    have htake : (x ++ c :: joinName [c] (y :: rest)).take x.length = x := by
      simpa using List.take_left x (c :: joinName [c] (y :: rest))
    have hdrop : (x ++ c :: joinName [c] (y :: rest)).drop (x.length + 1) =
        joinName [c] (y :: rest) := by
      have : x ++ c :: joinName [c] (y :: rest) =
          (x ++ [c]) ++ joinName [c] (y :: rest) := by simp
      rw [this]
      have hlen : x.length + 1 = (x ++ [c]).length := by simp
      rw [hlen]
      exact List.drop_left _ _
    rw [htake, hdrop, hrec]

theorem joinName_single (sep x : Bytes) : joinName sep [x] = x := rfl

theorem joinName_append_last {sep l : Bytes} : ∀ {p : List Bytes}, p ≠ [] →
    joinName sep (p ++ [l]) = joinName sep p ++ sep ++ l
  | [], h => absurd rfl h
  | [x], _ => by simp [joinName]
  | x :: y :: rest, _ => by
    have hrec := @joinName_append_last sep l (y :: rest) (by simp)
    simp only [List.cons_append, joinName]
    rw [List.cons_append] at hrec
    simp [hrec]

/-!
## Resolution along extended paths, and well-formed stores
-/

theorem lookupEntry_mem {es : Bkt} {k : Bytes} {e : Entry}
    (h : lookupEntry es k = some e) : (k, e) ∈ es := by
  unfold lookupEntry at h
  rcases hf : es.find? (fun e => e.1 == k) with _ | x
  · rw [hf] at h
    simp at h
  · rw [hf] at h
    simp only [Option.map_some', Option.some.injEq] at h
    have hmem := List.mem_of_find?_eq_some hf
    have hp := List.find?_some hf
    simp only [beq_iff_eq] at hp
    have : x = (k, e) := by
      obtain ⟨x1, x2⟩ := x
      simp only at hp h
      rw [hp, h]
    rw [← this]
    exact hmem

theorem dbLookup_mem {db : DBS} {s : Bytes} {es : Bkt}
    (h : dbLookup db s = some es) : (s, es) ∈ db := by
  unfold dbLookup at h
  rcases hf : db.find? (fun e => e.1 == s) with _ | x
  · rw [hf] at h
    simp at h
  · rw [hf] at h
    simp only [Option.map_some', Option.some.injEq] at h
    have hmem := List.mem_of_find?_eq_some hf
    have hp := List.find?_some hf
    simp only [beq_iff_eq] at hp
    have : x = (s, es) := by
      obtain ⟨x1, x2⟩ := x
      simp only at hp h
      rw [hp, h]
    rw [← this]
    exact hmem

theorem resolveGo_append (l : Bytes) : ∀ (p : List Bytes) (es : Bkt),
    resolveGo es (p ++ [l]) =
      (resolveGo es p).bind (fun es' =>
        match lookupEntry es' l with
        | some (.sub es'') => some es''
        | _ => none)
  | [], es => by
    rw [List.nil_append, resolveGo, resolveGo]
    rfl
  | s :: p', es => by
    rw [List.cons_append, resolveGo, resolveGo]
    rcases hl : lookupEntry es s with _ | e
    · rfl
    · cases e with
      | val v => rfl
      | sub es₁ => exact resolveGo_append l p' es₁

theorem resolvePath_append {db : DBS} (l : Bytes) : ∀ {p : List Bytes}, p ≠ [] →
    resolvePath db (p ++ [l]) =
      (resolvePath db p).bind (fun es =>
        match lookupEntry es l with
        | some (.sub es') => some es'
        | _ => none)
  | [], h => absurd rfl h
  | s :: p', _ => by
    rw [List.cons_append, resolvePath, resolvePath]
    rcases hl : dbLookup db s with _ | es
    · rfl
    · simp only [Option.some_bind]
      exact resolveGo_append l p' es

theorem hasKey_of_mem {es : Bkt} {k : Bytes} {e : Entry}
    (h : (k, e) ∈ es) : hasKey es k = true := by
  unfold hasKey
  rw [List.any_eq_true]
  exact ⟨(k, e), h, by simp⟩

theorem goodBkt_cons_parts {c : Nat} {k : Bytes} {en : Entry} {rest : Bkt}
    (h : goodBkt c ((k, en) :: rest) = true) :
    hasKey rest k = false ∧ entryGood c en = true ∧ goodBkt c rest = true := by
  rw [goodBkt] at h
  simp only [Bool.and_eq_true, Bool.not_eq_true'] at h
  exact ⟨h.1.1.1, h.1.2, h.2⟩

theorem goodBkt_sub_name {c : Nat} {k : Bytes} {es' : List (Bytes × Entry)}
    {rest : Bkt} (h : goodBkt c ((k, .sub es') :: rest) = true) :
    k ≠ [] ∧ c ∉ k ∧ goodBkt c es' = true := by
  rw [goodBkt] at h
  simp only [Bool.and_eq_true, Bool.not_eq_true'] at h
  obtain ⟨⟨⟨_, hb, hcon⟩, h3⟩, _⟩ := h
  rw [entryGood] at h3
  refine ⟨?_, ?_, h3⟩
  · simp only [List.isEmpty_eq_false, ne_eq] at hb
    exact hb
  · intro hc
    simp only [List.elem_eq_mem, decide_eq_false_iff_not] at hcon
    exact hcon hc

theorem goodBkt_of_mem_sub {c : Nat} :
    ∀ {es : Bkt} {k : Bytes} {es' : List (Bytes × Entry)},
    goodBkt c es = true → (k, .sub es') ∈ es →
    goodBkt c es' = true ∧ k ≠ [] ∧ c ∉ k := by
  intro es
  induction es with
  | nil => intro k es' _ hm; simp at hm
  | cons e rest ih =>
    intro k es' hg hm
    rcases List.mem_cons.mp hm with heq | hmem
    · rw [← heq] at hg
      have := goodBkt_sub_name hg
      exact ⟨this.2.2, this.1, this.2.1⟩
    · obtain ⟨k₀, en₀⟩ := e
      exact ih (goodBkt_cons_parts hg).2.2 hmem

theorem lookupEntry_of_mem_good {c : Nat} :
    ∀ {es : Bkt} {k : Bytes} {e : Entry},
    goodBkt c es = true → (k, e) ∈ es → lookupEntry es k = some e := by
  intro es
  induction es with
  | nil => intro k e _ hm; simp at hm
  | cons e₀ rest ih =>
    intro k e hg hm
    obtain ⟨k₀, en₀⟩ := e₀
    have parts := goodBkt_cons_parts hg
    rcases List.mem_cons.mp hm with heq | hmem
    · injection heq with hk he
      subst hk
      subst he
      rw [lookupEntry_cons, if_pos rfl]
    · rw [lookupEntry_cons]
      by_cases hk : k₀ = k
      · subst hk
        exact absurd (hasKey_of_mem hmem) (by simp [parts.1])
      · rw [if_neg hk]
        exact ih parts.2.2 hmem

theorem goodDB_cons_parts {c : Nat} {e : Bytes × Bkt} {rest : DBS}
    (h : goodDB c (e :: rest) = true) :
    rest.any (fun e' => e'.1 == e.1) = false ∧ e.1 ≠ [] ∧ c ∉ e.1 ∧
    goodBkt c e.2 = true ∧ goodDB c rest = true := by
  rw [goodDB] at h
  simp only [Bool.and_eq_true, Bool.not_eq_true'] at h
  obtain ⟨⟨⟨⟨h1, h2⟩, h3⟩, h4⟩, h5⟩ := h
  refine ⟨h1, ?_, ?_, h4, h5⟩
  · simp only [List.isEmpty_eq_false, ne_eq] at h2
    exact h2
  · intro hc
    simp only [List.elem_eq_mem, decide_eq_false_iff_not] at h3
    exact h3 hc

theorem dbLookup_of_mem_good {c : Nat} :
    ∀ {db : DBS} {s : Bytes} {es : Bkt},
    goodDB c db = true → (s, es) ∈ db → dbLookup db s = some es := by
  intro db
  induction db with
  | nil => intro s es _ hm; simp at hm
  | cons e₀ rest ih =>
    intro s es hg hm
    have parts := goodDB_cons_parts hg
    rcases List.mem_cons.mp hm with heq | hmem
    · obtain ⟨s₀, es₀⟩ := e₀
      injection heq with hk he
      subst hk
      subst he
      rw [dbLookup_cons, if_pos rfl]
    · rw [dbLookup_cons]
      by_cases hk : e₀.1 = s
      · exfalso
        have : rest.any (fun e' => e'.1 == e₀.1) = true := by
          rw [List.any_eq_true]
          exact ⟨(s, es), hmem, by simp [hk]⟩
        rw [parts.1] at this
        exact absurd this (by simp)
      · rw [if_neg hk]
        exact ih parts.2.2.2.2 hmem

theorem good_of_dbLookup {c : Nat} :
    ∀ {db : DBS} {s : Bytes} {es : Bkt},
    goodDB c db = true → dbLookup db s = some es →
    goodBkt c es = true ∧ s ≠ [] ∧ c ∉ s := by
  intro db
  induction db with
  | nil => intro s es _ h; simp [dbLookup] at h
  | cons e₀ rest ih =>
    intro s es hg h
    have parts := goodDB_cons_parts hg
    rw [dbLookup_cons] at h
    by_cases hk : e₀.1 = s
    · rw [if_pos hk] at h
      simp only [Option.some.injEq] at h
      rw [← h, ← hk]
      exact ⟨parts.2.2.2.1, parts.2.1, parts.2.2.1⟩
    · rw [if_neg hk] at h
      exact ih parts.2.2.2.2 h

theorem good_resolveGo {c : Nat} : ∀ {p : List Bytes} {es es' : Bkt},
    goodBkt c es = true → resolveGo es p = some es' → goodBkt c es' = true
  | [], es, es', hg, h => by
    rw [resolveGo] at h
    simp only [Option.some.injEq] at h
    rw [← h]
    exact hg
  | s :: p', es, es', hg, h => by
    rw [resolveGo] at h
    rcases hl : lookupEntry es s with _ | e
    · rw [hl] at h
      simp at h
    · rw [hl] at h
      cases e with
      | val v => simp at h
      | sub es₁ =>
        have hmem := lookupEntry_mem hl
        have hgood₁ := (goodBkt_of_mem_sub hg hmem).1
        exact good_resolveGo hgood₁ h

theorem good_resolvePath {c : Nat} {db : DBS} {p : List Bytes} {es : Bkt}
    (hg : goodDB c db = true) (h : resolvePath db p = some es) :
    goodBkt c es = true := by
  cases p with
  | nil => simp [resolvePath] at h
  | cons s p' =>
    rw [resolvePath] at h
    rcases hl : dbLookup db s with _ | es₀
    · rw [hl] at h
      simp at h
    · rw [hl] at h
      simp only [Option.some_bind] at h
      exact good_resolveGo (good_of_dbLookup hg hl).1 h

/-!
## Structure of the container-path enumeration
-/

theorem bktPaths_nil : bktPaths [] = [] := rfl

theorem bktPaths_cons_val (k v : Bytes) (rest : Bkt) :
    bktPaths ((k, .val v) :: rest) = bktPaths rest := rfl

theorem bktPaths_cons_sub (k : Bytes) (es' : List (Bytes × Entry)) (rest : Bkt) :
    bktPaths ((k, .sub es') :: rest) =
      ([k] :: (bktPaths es').map (k :: ·)) ++ bktPaths rest := rfl

theorem subEntries_nil : subEntries [] = [] := rfl

theorem subEntries_cons_val (k v : Bytes) (rest : Bkt) :
    subEntries ((k, .val v) :: rest) = subEntries rest := rfl

theorem subEntries_cons_sub (k : Bytes) (es' : List (Bytes × Entry)) (rest : Bkt) :
    subEntries ((k, .sub es') :: rest) = (k, es') :: subEntries rest := rfl

theorem subNamesOf_nil : subNamesOf [] = [] := rfl

theorem subNamesOf_cons_val (k v : Bytes) (rest : Bkt) :
    subNamesOf ((k, .val v) :: rest) = subNamesOf rest := rfl

theorem subNamesOf_cons_sub (k : Bytes) (es' : List (Bytes × Entry)) (rest : Bkt) :
    subNamesOf ((k, .sub es') :: rest) = k :: subNamesOf rest := rfl

theorem subNamesOf_eq_map : ∀ es : Bkt, subNamesOf es = (subEntries es).map (·.1)
  | [] => rfl
  | (k, .val v) :: rest => by
    rw [subNamesOf_cons_val, subEntries_cons_val]
    exact subNamesOf_eq_map rest
  | (k, .sub es') :: rest => by
    rw [subNamesOf_cons_sub, subEntries_cons_sub, List.map_cons]
    rw [subNamesOf_eq_map rest]

theorem mem_subEntries : ∀ {es : Bkt} {k : Bytes} {es' : Bkt},
    (k, es') ∈ subEntries es ↔ (k, Entry.sub es') ∈ es := by
  intro es k es'
  induction es with
  | nil => simp [subEntries_nil]
  | cons e rest ih =>
    obtain ⟨k₀, en₀⟩ := e
    cases en₀ with
    | val v =>
      rw [subEntries_cons_val]
      simp only [List.mem_cons, ih]
      constructor
      · exact Or.inr
      · rintro (h | h)
        · exact absurd (congrArg Prod.snd h) (by simp)
        · exact h
    | sub es₀ =>
      rw [subEntries_cons_sub]
      simp only [List.mem_cons, ih, Prod.mk.injEq, Entry.sub.injEq]

theorem bktPaths_length : ∀ es : Bkt, (bktPaths es).length = bktCount es
  | [] => rfl
  | (k, .val v) :: rest => by
    rw [bktPaths_cons_val, bktCount, entryCount]
    rw [bktPaths_length rest]
    omega
  | (k, .sub es') :: rest => by
    rw [bktPaths_cons_sub, bktCount, entryCount]
    rw [List.length_append, List.length_cons, List.length_map]
    rw [bktPaths_length es', bktPaths_length rest]
    omega

theorem bktTotal_cons (e : Bytes × Bkt) (rest : DBS) :
    DBS.bktTotal (e :: rest) = 1 + bktCount e.2 + DBS.bktTotal rest := rfl

theorem bktCount_lt_total : ∀ {db : DBS} {s : Bytes} {es : Bkt},
    (s, es) ∈ db → bktCount es < DBS.bktTotal db := by
  intro db
  induction db with
  | nil => intro s es h; simp at h
  | cons e rest ih =>
    intro s es h
    rw [bktTotal_cons]
    rcases List.mem_cons.mp h with heq | hmem
    · have hes : es = e.2 := congrArg Prod.snd heq
      rw [hes]
      omega
    · have := ih hmem
      omega

theorem subEntries_weightSum : ∀ es : Bkt,
    ((subEntries es).map (fun x => 1 + (bktPaths x.2).length)).sum =
      (bktPaths es).length
  | [] => rfl
  | (k, .val v) :: rest => by
    rw [subEntries_cons_val, bktPaths_cons_val]
    exact subEntries_weightSum rest
  | (k, .sub es') :: rest => by
    rw [subEntries_cons_sub, bktPaths_cons_sub, List.map_cons, List.sum_cons]
    rw [subEntries_weightSum rest]
    rw [List.length_append, List.length_cons, List.length_map]
    show 1 + (bktPaths es').length + (bktPaths rest).length =
      (bktPaths es').length + 1 + (bktPaths rest).length
    omega

theorem mem_bktPaths_iff : ∀ {es : Bkt} {q : List Bytes},
    q ∈ bktPaths es ↔
      ∃ x ∈ subEntries es, q = [x.1] ∨ ∃ q' ∈ bktPaths x.2, q = x.1 :: q' := by
  intro es q
  induction es with
  | nil => simp [bktPaths_nil, subEntries_nil]
  | cons e rest ih =>
    obtain ⟨k₀, en₀⟩ := e
    cases en₀ with
    | val v =>
      rw [bktPaths_cons_val, subEntries_cons_val]
      exact ih
    | sub es₀ =>
      rw [bktPaths_cons_sub, subEntries_cons_sub]
      simp only [List.mem_append, List.mem_cons, List.mem_map, ih]
      constructor
      · rintro ((h | ⟨q', hq', rfl⟩) | ⟨x, hx, hor⟩)
        · exact ⟨(k₀, es₀), Or.inl rfl, Or.inl h⟩
        · exact ⟨(k₀, es₀), Or.inl rfl, Or.inr ⟨q', hq', rfl⟩⟩
        · exact ⟨x, Or.inr hx, hor⟩
      · rintro ⟨x, hx | hx, hor⟩
        · subst hx
          rcases hor with h | ⟨q', hq', rfl⟩
          · exact Or.inl (Or.inl h)
          · exact Or.inl (Or.inr ⟨q', hq', rfl⟩)
        · exact Or.inr ⟨x, hx, hor⟩

/-!
## The discovery walk (claim C2)
-/

/-- Listing the direct children of the container at a good path: splitting
the joined name recovers the segments, resolution finds the container, and
the returned full names are the joined child paths. -/
theorem getRootNames_at_path {db : DBS} {p : List Bytes} {es : Bkt}
    (hpne : p ≠ []) (hres : resolvePath db p = some es)
    (hclean : ∀ x ∈ p, (47 : Nat) ∉ x) :
    Bucket.GetRootBucketNames ⟨db, joinName [47] p, [47]⟩ =
      .ok (((subEntries es).map (fun x => p ++ [x.1])).map (joinName [47])) := by
  unfold Bucket.GetRootBucketNames Bucket.View
  simp only
  rw [bytesSplit_joinName hpne hclean, hres]
  simp only [Except.map, List.map_map]
  rw [subNamesOf_eq_map]
  rw [List.map_map]
  apply congrArg
  apply List.map_congr_left
  intro x _
  simp only [Function.comp_apply]
  exact (joinName_append_last hpne).symm

/-- One step of the work-queue loop when listing the popped name's
children succeeds. -/
theorem bfsLoop_cons_ok {db : DBS} {sep : Bytes} {fuel : Nat}
    {acc : List Bytes} {n : Bytes} {queue subs : List Bytes}
    (h : Bucket.GetRootBucketNames ⟨db, n, sep⟩ = .ok subs) :
    bfsLoop db sep (fuel + 1) acc (n :: queue) =
      bfsLoop db sep fuel (acc ++ [n]) (queue ++ subs) := by
  rw [bfsLoop, h]

/-- The discovery queue loop visits exactly the queued paths and
everything below them: with every queued name the join of a good path and
fuel above the remaining work, the loop finishes without error and its
output names are precisely the joins of the queued paths and of all their
descendant container paths. -/
theorem bfsLoop_spec {db : DBS} (hg : goodDB 47 db = true) :
    ∀ (fuel : Nat) (P : List (List Bytes)) (acc : List Bytes),
    (∀ p ∈ P, GoodPath db p) → queueWeight db P < fuel →
    (bfsLoop db [47] fuel acc (P.map (joinName [47]))).2 = none ∧
    ∀ n, n ∈ (bfsLoop db [47] fuel acc (P.map (joinName [47]))).1 ↔
      (n ∈ acc ∨ ∃ p ∈ P, ∃ q ∈ underPaths db p, n = joinName [47] q) := by
  intro fuel
  induction fuel with
  | zero => intro P acc hP hw; omega
  | succ f ih =>
    intro P acc hP hw
    cases P with
    | nil =>
      rw [List.map_nil, bfsLoop]
      simp
    | cons p P' =>
      obtain ⟨hpne, hres', hclean⟩ := hP p (by simp)
      obtain ⟨es, hres⟩ := Option.isSome_iff_exists.mp hres'
      rw [List.map_cons,
        bfsLoop_cons_ok (getRootNames_at_path hpne hres hclean),
        ← List.map_append]
      have hgoodB : goodBkt 47 es = true := good_resolvePath hg hres
      have hchildres : ∀ x ∈ subEntries es,
          resolvePath db (p ++ [x.1]) = some x.2 := by
        intro x hx
        rw [resolvePath_append x.1 hpne, hres]
        simp only [Option.some_bind]
        obtain ⟨k, es'⟩ := x
        rw [lookupEntry_of_mem_good hgoodB (mem_subEntries.mp hx)]
      have hPnew : ∀ q ∈ P' ++ (subEntries es).map (fun x => p ++ [x.1]),
          GoodPath db q := by
        intro q hq
        rcases List.mem_append.mp hq with hq | hq
        · exact hP q (List.mem_cons_of_mem _ hq)
        · obtain ⟨x, hx, rfl⟩ := List.mem_map.mp hq
          refine ⟨by simp, ?_, ?_⟩
          · rw [hchildres x hx]
            rfl
          · intro z hz
            rcases List.mem_append.mp hz with hz | hz
            · exact hclean z hz
            · obtain ⟨k, es'⟩ := x
              rw [List.mem_singleton] at hz
              subst hz
              exact (goodBkt_of_mem_sub hgoodB (mem_subEntries.mp hx)).2.2
      have hweight : queueWeight db
          (P' ++ (subEntries es).map (fun x => p ++ [x.1])) < f := by
        have hcw : queueWeight db ((subEntries es).map (fun x => p ++ [x.1])) =
            (bktPaths es).length := by
          unfold queueWeight
          rw [List.map_map]
          rw [List.map_congr_left (fun x hx => by
            simp only [Function.comp_apply]
            unfold pathWeight
            rw [hchildres x hx] :
            ∀ x ∈ subEntries es, (pathWeight db ∘ fun x => p ++ [x.1]) x =
              (fun x => 1 + (bktPaths x.2).length) x)]
          exact subEntries_weightSum es
        have hqw : queueWeight db (p :: P') =
            (1 + (bktPaths es).length) + queueWeight db P' := by
          unfold queueWeight pathWeight
          rw [List.map_cons, List.sum_cons, hres]
        unfold queueWeight at *
        rw [List.map_append, List.sum_append]
        rw [hqw] at hw
        omega
      obtain ⟨hnone, hmem⟩ := ih (P' ++ (subEntries es).map (fun x => p ++ [x.1]))
        (acc ++ [joinName [47] p]) hPnew hweight
      refine ⟨hnone, ?_⟩
      intro n
      rw [hmem n]
      have hup : underPaths db p = p :: (bktPaths es).map (p ++ ·) := by
        unfold underPaths
        rw [hres]
      have hupc : ∀ x ∈ subEntries es,
          underPaths db (p ++ [x.1]) =
            (p ++ [x.1]) :: (bktPaths x.2).map ((p ++ [x.1]) ++ ·) := by
        intro x hx
        unfold underPaths
        rw [hchildres x hx]
      constructor
      · rintro (hacc | ⟨q, hq, r, hr, rfl⟩)
        · rcases List.mem_append.mp hacc with h | h
          · exact Or.inl h
          · rw [List.mem_singleton] at h
            subst h
            refine Or.inr ⟨p, by simp, p, ?_, rfl⟩
            rw [hup]
            simp
        · rcases List.mem_append.mp hq with hq | hq
          · exact Or.inr ⟨q, List.mem_cons_of_mem _ hq, r, hr, rfl⟩
          · obtain ⟨x, hx, rfl⟩ := List.mem_map.mp hq
            rw [hupc x hx] at hr
            rcases List.mem_cons.mp hr with rfl | hr
            · refine Or.inr ⟨p, by simp, p ++ [x.1], ?_, rfl⟩
              rw [hup]
              refine List.mem_cons_of_mem _ (List.mem_map.mpr ⟨[x.1], ?_, rfl⟩)
              rw [mem_bktPaths_iff]
              exact ⟨x, hx, Or.inl rfl⟩
            · obtain ⟨r', hr', rfl⟩ := List.mem_map.mp hr
              refine Or.inr ⟨p, by simp, (p ++ [x.1]) ++ r', ?_, rfl⟩
              rw [hup]
              refine List.mem_cons_of_mem _ (List.mem_map.mpr ⟨x.1 :: r', ?_, ?_⟩)
              · rw [mem_bktPaths_iff]
                exact ⟨x, hx, Or.inr ⟨r', hr', rfl⟩⟩
              · rw [List.append_cons]
      · rintro (hacc | ⟨q, hq, r, hr, rfl⟩)
        · exact Or.inl (List.mem_append.mpr (Or.inl hacc))
        · rcases List.mem_cons.mp hq with rfl | hq
          · rw [hup] at hr
            rcases List.mem_cons.mp hr with rfl | hr
            · exact Or.inl (List.mem_append.mpr (Or.inr (by simp)))
            · obtain ⟨r', hr', rfl⟩ := List.mem_map.mp hr
              rw [mem_bktPaths_iff] at hr'
              obtain ⟨x, hx, hcase⟩ := hr'
              rcases hcase with rfl | ⟨r'', hr'', rfl⟩
              · refine Or.inr ⟨q ++ [x.1],
                  List.mem_append.mpr (Or.inr (List.mem_map.mpr ⟨x, hx, rfl⟩)),
                  q ++ [x.1], ?_, rfl⟩
                rw [hupc x hx]
                simp
              · refine Or.inr ⟨q ++ [x.1],
                  List.mem_append.mpr (Or.inr (List.mem_map.mpr ⟨x, hx, rfl⟩)),
                  (q ++ [x.1]) ++ r'', ?_, ?_⟩
                · rw [hupc x hx]
                  exact List.mem_cons_of_mem _ (List.mem_map.mpr ⟨r'', hr'', rfl⟩)
                · rw [List.append_cons]
          · exact Or.inr ⟨q, List.mem_append.mpr (Or.inl hq), r, hr, rfl⟩

/-- Unfolding `Bucket.GetAllBucketNames` when the initial child listing
succeeds. -/
theorem getAllBucketNames_ok {b : Bucket} {queue : List Bytes}
    (h : b.GetRootBucketNames = .ok queue) :
    b.GetAllBucketNames = bfsLoop b.db b.separator (bfsFuel b.db) [] queue := by
  rw [Bucket.GetAllBucketNames, h]

/-- Discovery below one top-level container: the walk succeeds and lists
exactly the joined full paths of the containers strictly below it. -/
theorem bucketGetAll_at_root {db : DBS} {r : Bytes} {es : Bkt}
    (hg : goodDB 47 db = true) (hl : dbLookup db r = some es) :
    (Bucket.GetAllBucketNames (DBS.Bucket db r)).2 = none ∧
    ∀ n, n ∈ (Bucket.GetAllBucketNames (DBS.Bucket db r)).1 ↔
      ∃ q ∈ (bktPaths es).map ([r] ++ ·), n = joinName [47] q := by
  have hgparts := good_of_dbLookup hg hl
  have hres : resolvePath db [r] = some es := by
    rw [resolvePath, hl]
    rfl
  have hclean : ∀ x ∈ [r], (47 : Nat) ∉ x := by
    intro x hx
    rw [List.mem_singleton] at hx
    subst hx
    exact hgparts.2.2
  have hroot : (DBS.Bucket db r) = ⟨db, joinName [47] [r], [47]⟩ := rfl
  rw [hroot,
    getAllBucketNames_ok (getRootNames_at_path (by simp) hres hclean)]
  have hchildres : ∀ x ∈ subEntries es,
      resolvePath db ([r] ++ [x.1]) = some x.2 := by
    intro x hx
    rw [resolvePath_append x.1 (by simp), hres]
    simp only [Option.some_bind]
    obtain ⟨k, es'⟩ := x
    rw [lookupEntry_of_mem_good hgparts.1 (mem_subEntries.mp hx)]
  have hPgood : ∀ q ∈ (subEntries es).map (fun x => [r] ++ [x.1]),
      GoodPath db q := by
    intro q hq
    obtain ⟨x, hx, rfl⟩ := List.mem_map.mp hq
    refine ⟨by simp, ?_, ?_⟩
    · rw [hchildres x hx]
      rfl
    · intro z hz
      rcases List.mem_append.mp hz with hz | hz
      · rw [List.mem_singleton] at hz
        subst hz
        exact hgparts.2.2
      · rw [List.mem_singleton] at hz
        subst hz
        exact (goodBkt_of_mem_sub hgparts.1 (mem_subEntries.mp hx)).2.2
  have hweight : queueWeight db ((subEntries es).map (fun x => [r] ++ [x.1])) <
      bfsFuel db := by
    have hcw : queueWeight db ((subEntries es).map (fun x => [r] ++ [x.1])) =
        (bktPaths es).length := by
      unfold queueWeight
      rw [List.map_map]
      rw [List.map_congr_left (fun x hx => by
        simp only [Function.comp_apply]
        unfold pathWeight
        rw [hchildres x hx] :
        ∀ x ∈ subEntries es, (pathWeight db ∘ fun x => [r] ++ [x.1]) x =
          (fun x => 1 + (bktPaths x.2).length) x)]
      exact subEntries_weightSum es
    rw [hcw, bktPaths_length]
    unfold bfsFuel
    have := bktCount_lt_total (dbLookup_mem hl)
    omega
  obtain ⟨h2, hmem⟩ := bfsLoop_spec hg (bfsFuel db)
    ((subEntries es).map (fun x => [r] ++ [x.1])) [] hPgood hweight
  refine ⟨h2, ?_⟩
  intro n
  rw [hmem n]
  simp only [List.not_mem_nil, false_or]
  have hupc : ∀ x ∈ subEntries es,
      underPaths db ([r] ++ [x.1]) =
        ([r] ++ [x.1]) :: (bktPaths x.2).map (([r] ++ [x.1]) ++ ·) := by
    intro x hx
    unfold underPaths
    rw [hchildres x hx]
  constructor
  · rintro ⟨c, hc, q, hq, rfl⟩
    obtain ⟨x, hx, rfl⟩ := List.mem_map.mp hc
    rw [hupc x hx] at hq
    rcases List.mem_cons.mp hq with rfl | hq
    · refine ⟨[r] ++ [x.1], List.mem_map.mpr ⟨[x.1], ?_, rfl⟩, rfl⟩
      rw [mem_bktPaths_iff]
      exact ⟨x, hx, Or.inl rfl⟩
    · obtain ⟨q', hq', rfl⟩ := List.mem_map.mp hq
      refine ⟨([r] ++ [x.1]) ++ q', List.mem_map.mpr ⟨x.1 :: q', ?_, ?_⟩, rfl⟩
      · rw [mem_bktPaths_iff]
        exact ⟨x, hx, Or.inr ⟨q', hq', rfl⟩⟩
      · rw [List.append_cons]
  · rintro ⟨q, hq, rfl⟩
    obtain ⟨q₀, hq₀, rfl⟩ := List.mem_map.mp hq
    rw [mem_bktPaths_iff] at hq₀
    obtain ⟨x, hx, hcase⟩ := hq₀
    rcases hcase with rfl | ⟨q'', hq'', rfl⟩
    · refine ⟨[r] ++ [x.1], List.mem_map.mpr ⟨x, hx, rfl⟩, [r] ++ [x.1], ?_, rfl⟩
      rw [hupc x hx]
      simp
    · refine ⟨[r] ++ [x.1], List.mem_map.mpr ⟨x, hx, rfl⟩,
        ([r] ++ [x.1]) ++ q'', ?_, ?_⟩
      · rw [hupc x hx]
        exact List.mem_cons_of_mem _ (List.mem_map.mpr ⟨q'', hq'', rfl⟩)
      · rw [List.append_cons]

/-- The root loop of `DB.GetAllBucketNames` over a list of resolvable
top-level names: no error, and the output is each listed root followed by
the joined paths of everything below it. -/
theorem dbAllGo_spec {db : DBS} (hg : goodDB 47 db = true) :
    ∀ R : List Bytes, (∀ r ∈ R, (dbLookup db r).isSome) →
    (dbAllGo db R).2 = none ∧
    ∀ n, n ∈ (dbAllGo db R).1 ↔
      ∃ r ∈ R, ∃ es, dbLookup db r = some es ∧
        (n = r ∨ ∃ q ∈ (bktPaths es).map ([r] ++ ·), n = joinName [47] q) := by
  intro R
  induction R with
  | nil =>
    intro _
    rw [dbAllGo]
    simp
  | cons r R' ih =>
    intro hR
    obtain ⟨es, hles⟩ := Option.isSome_iff_exists.mp (hR r (by simp))
    obtain ⟨hB2, hBmem⟩ := bucketGetAll_at_root hg hles
    obtain ⟨hrec2, hrecmem⟩ := ih (fun r' hr' => hR r' (List.mem_cons_of_mem _ hr'))
    rcases hB : Bucket.GetAllBucketNames (DBS.Bucket db r) with ⟨subs, e⟩
    rw [hB] at hB2 hBmem
    simp only at hB2 hBmem
    subst hB2
    rcases hrec : dbAllGo db R' with ⟨more, e'⟩
    rw [hrec] at hrec2 hrecmem
    simp only at hrec2 hrecmem
    subst hrec2
    rw [dbAllGo, hB, hrec]
    refine ⟨rfl, ?_⟩
    intro n
    show n ∈ r :: (subs ++ more) ↔ _
    rw [List.mem_cons, List.mem_append]
    constructor
    · rintro (rfl | hsub | hmore)
      · exact ⟨n, List.mem_cons_self _ _, es, hles, Or.inl rfl⟩
      · obtain ⟨q, hq, rfl⟩ := (hBmem n).mp hsub
        exact ⟨r, List.mem_cons_self _ _, es, hles, Or.inr ⟨q, hq, rfl⟩⟩
      · obtain ⟨r', hr', es', hles', hcase⟩ := (hrecmem n).mp hmore
        exact ⟨r', List.mem_cons_of_mem _ hr', es', hles', hcase⟩
    · rintro ⟨r', hr'mem, es', hles', hcase⟩
      rcases List.mem_cons.mp hr'mem with rfl | hr'
      · rw [hles] at hles'
        simp only [Option.some.injEq] at hles'
        subst hles'
        rcases hcase with rfl | ⟨q, hq, rfl⟩
        · exact Or.inl rfl
        · exact Or.inr (Or.inl ((hBmem _).mpr ⟨q, hq, rfl⟩))
      · exact Or.inr (Or.inr ((hrecmem n).mpr ⟨r', hr', es', hles', hcase⟩))

/-- C2: on a store whose containers were created through write-mode
resolution with the default `/` separator (captured by `goodDB 47`:
unique keys per container and separator-free non-empty container names),
`DB.GetAllBucketNames` finishes without error and returns exactly the set
of full hierarchical names of all existing containers — each the join of
the segment names from the root down with `/`, none missing, none extra,
compared as a set. -/
theorem dbGetAllBucketNames_complete (db : DBS) (hg : goodDB 47 db = true) :
    (DBS.GetAllBucketNames db).2 = none ∧
    ∀ n, n ∈ (DBS.GetAllBucketNames db).1 ↔
      ∃ p ∈ DBS.allPaths db, n = joinName [47] p := by
  unfold DBS.GetAllBucketNames DBS.GetRootBucketNames
  have hR : ∀ r ∈ db.map (·.1), (dbLookup db r).isSome := by
    intro r hr
    obtain ⟨e, he, rfl⟩ := List.mem_map.mp hr
    rw [dbLookup_of_mem_good hg (show (e.1, e.2) ∈ db from he)]
    rfl
  obtain ⟨h2, hmem⟩ := dbAllGo_spec hg (db.map (·.1)) hR
  refine ⟨h2, ?_⟩
  intro n
  rw [hmem n]
  constructor
  · rintro ⟨r, hr, es, hles, hcase⟩
    have hmemdb : (r, es) ∈ db := dbLookup_mem hles
    rcases hcase with rfl | ⟨q, hq, rfl⟩
    · refine ⟨[n], ?_, (joinName_single _ _).symm⟩
      unfold DBS.allPaths
      rw [List.mem_flatMap]
      exact ⟨(n, es), hmemdb, by simp⟩
    · obtain ⟨q₀, hq₀, rfl⟩ := List.mem_map.mp hq
      refine ⟨[r] ++ q₀, ?_, rfl⟩
      unfold DBS.allPaths
      rw [List.mem_flatMap]
      refine ⟨(r, es), hmemdb, ?_⟩
      rw [List.mem_cons]
      refine Or.inr (List.mem_map.mpr ⟨q₀, hq₀, ?_⟩)
      simp
  · rintro ⟨p, hp, rfl⟩
    unfold DBS.allPaths at hp
    rw [List.mem_flatMap] at hp
    obtain ⟨e, he, hpe⟩ := hp
    obtain ⟨r, es⟩ := e
    have hles : dbLookup db r = some es := dbLookup_of_mem_good hg he
    have hrmem : r ∈ db.map (·.1) := List.mem_map.mpr ⟨(r, es), he, rfl⟩
    rw [List.mem_cons] at hpe
    rcases hpe with rfl | hpe
    · exact ⟨r, hrmem, es, hles, Or.inl (joinName_single _ _)⟩
    · obtain ⟨q₀, hq₀, rfl⟩ := List.mem_map.mp hpe
      refine ⟨r, hrmem, es, hles,
        Or.inr ⟨[r] ++ q₀, List.mem_map.mpr ⟨q₀, hq₀, rfl⟩, ?_⟩⟩
      simp

/-- Instance of `dbGetAllBucketNames_complete`: the `{X, X/Y, X/Y/Z, W}`
store is well-formed and its full discovery is errorless and exactly
matches its container paths. -/
theorem dbGetAllBucketNames_complete_witness :
    goodDB 47 demoDisc = true ∧
    ((DBS.GetAllBucketNames demoDisc).2 = none ∧
     ∀ n, n ∈ (DBS.GetAllBucketNames demoDisc).1 ↔
       ∃ p ∈ DBS.allPaths demoDisc, n = joinName [47] p) :=
  ⟨by decide, dbGetAllBucketNames_complete demoDisc (by decide)⟩

end MBuckets
